import Mathlib

/-!
Verification of the recipe extraction-and-normalization pipeline.

The definitions below are a shallow embedding of the repository's text
normalizers (`src/lib/recipe-utils.ts`), the structured-data normalizers
(`src/lib/normalizers.js`) and the LLM extraction/enrichment merge
(`src/lib/llm.ts`), plus the later-revision ingredient utilities found in
`src/unnamed/part_002`.  JavaScript numbers are modelled as `ℚ`, strings as
`List Char` (wrapped in `String` at the interfaces), and JSON values as an
inductive `Json` type.  External platform capabilities are made explicit:
the WHATWG URL parser (`new URL(url).hostname`, used by `getDomain`) is
passed as an oracle `dom : String → Option String`, the clock
(`new Date().toISOString()`) as a `now : String` argument, and HTML-entity
decoding by the external `he` library is modelled as the identity (it only
rewrites `&...;` entity sequences, which none of the inputs considered here
contain).  Regular-expression matching in the source is modelled by
dedicated deterministic matchers; in every case the pattern's alternatives
are prefix-disjoint, so the backtracking engine's result coincides with the
greedy first-alternative match implemented here (argued case by case in the
doc comments).
-/

set_option maxRecDepth 8192

/- Batteries marks the `Rat` arithmetic operations `@[irreducible]`, which
would prevent `decide` from evaluating the embedding on concrete inputs;
restore the default transparency for this file (the JS numbers of the
source are modelled as `ℚ`). -/
attribute [local semireducible] Rat.add Rat.mul Rat.sub Rat.inv Rat.ofScientific

namespace Recipes

/-! ## Character classes and basic string utilities -/

/-- ASCII whitespace, the fragment of the JavaScript `\s` class exercised by
the inputs in this development (JS additionally matches some Unicode
spaces, which never occur here). -/
def isWsChar (c : Char) : Bool :=
  c = ' ' || c = '\t' || c = '\n' || c = '\r' || c = '\x0b' || c = '\x0c'

def isDigitChar (c : Char) : Bool :=
  '0' ≤ c && c ≤ '9'

def isAsciiLetter (c : Char) : Bool :=
  ('a' ≤ c && c ≤ 'z') || ('A' ≤ c && c ≤ 'Z')

/-- JavaScript `\w` (word character): letters, digits, underscore. -/
def isWordChar (c : Char) : Bool :=
  isAsciiLetter c || isDigitChar c || c = '_'

/-- ASCII model of `String.prototype.toLowerCase` (`A`-`Z` mapped down; the
source only ever compares such tags). -/
def lowerChar (c : Char) : Char :=
  if 'A' ≤ c && c ≤ 'Z' then Char.ofNat (c.toNat + 32) else c

def lowerStr (l : List Char) : List Char := l.map lowerChar

/-- `String.prototype.trim`: drop leading and trailing whitespace. -/
def trimWs (l : List Char) : List Char :=
  ((l.dropWhile isWsChar).reverse.dropWhile isWsChar).reverse

/-- `replace(/\s+/g, ' ')`, written with an in-run flag for structural
recursion: each maximal whitespace run contributes exactly one space. -/
def squeezeWsAux (inRun : Bool) : List Char → List Char
  | [] => []
  | c :: rest =>
    if isWsChar c then
      if inRun then squeezeWsAux true rest
      else ' ' :: squeezeWsAux true rest
    else c :: squeezeWsAux false rest

/-- `replace(/\s+/g, ' ')`: each maximal whitespace run becomes one space. -/
def squeezeWs (l : List Char) : List Char := squeezeWsAux false l

/-- `line.trim().replace(/\s+/g, ' ')` from `parseIngredientLine`. -/
def compactWs (l : List Char) : List Char := squeezeWs (trimWs l)

/-- The first character, if any, is not whitespace. -/
def headNotWs (l : List Char) : Bool :=
  match l.head? with
  | some c => !isWsChar c
  | none => true

/-- Every whitespace character is a plain space immediately followed by a
non-whitespace character (or the end): the shape of `replace(/\s+/g, ' ')`
output, under which the replacement is the identity. -/
def isolSpaces : List Char → Bool
  | [] => true
  | c :: rest =>
    (if isWsChar c then decide (c = ' ') && headNotWs rest else true) &&
      isolSpaces rest

/-- HTML-entity decoding (`he.decode`) modelled as the identity: it only
rewrites `&...;` entity sequences, which no input in this development
contains. -/
def decode (l : List Char) : List Char := l

def natOfDigits (l : List Char) : ℕ :=
  l.foldl (fun acc c => 10 * acc + (c.toNat - '0'.toNat)) 0

/-- JS `Math.round`: round half toward +∞. -/
def jsRound (q : ℚ) : ℤ := ⌊q + 1/2⌋

/-- `clampInt` from `src/lib/recipe-utils.ts`: `null` for a missing number,
else `Math.max(0, Math.round(n))` (every `ℚ` is a finite JS number). -/
def clampInt (n : Option ℚ) : Option ℚ :=
  match n with
  | none => none
  | some q => some (max 0 (jsRound q))

/-- The JS nullish-coalescing operator `a ?? b` on optional values. -/
def jsNullish {α : Type} (a b : Option α) : Option α :=
  match a with
  | some x => some x
  | none => b

/-- `x || null` on a number: `0` is falsy. -/
def orNullNum (q : ℚ) : Option ℚ :=
  if q = 0 then none else some q

/-- `s || fallback` on an optional string: `null`/`undefined` and `""` are
falsy. -/
def jsOrStr (a : Option (List Char)) (b : Option (List Char)) : Option (List Char) :=
  match a with
  | some s => if s = [] then b else some s
  | none => b

/-! ## JSON values and the canonical Recipe record -/

/-- Untyped JSON values as handled by the normalizers.  A missing object
field (`undefined`) is modelled as `jnull`; the two are treated alike by
every access pattern in the source (`??`, `||`, truthiness tests). -/
inductive Json where
  | jnull
  | jbool (b : Bool)
  | jnum (q : ℚ)
  | jstr (s : List Char)
  | jarr (xs : List Json)
  | jobj (fields : List (List Char × Json))

/-- Field access `obj.key` on a JSON value: `jnull`-as-undefined for
non-objects and missing keys. -/
def Json.get (j : Json) (key : List Char) : Json :=
  match j with
  | .jobj fields =>
    match fields.lookup key with
    | some v => v
    | none => .jnull
  | _ => .jnull

/-- `obj.key` read as a string: `some` only when the field is a string. -/
def Json.getStr (j : Json) (key : List Char) : Option (List Char) :=
  match j.get key with
  | .jstr s => some s
  | _ => none

/-- JS truthiness of a JSON value (`0`, `""`, `null`, `false` are falsy). -/
def Json.truthy : Json → Bool
  | .jnull => false
  | .jbool b => b
  | .jnum q => q ≠ 0
  | .jstr s => s ≠ []
  | .jarr _ => true
  | .jobj _ => true

/-- An ingredient as produced by `parseIngredientLine`. -/
structure Ingredient where
  original : List Char
  quantity : Option ℚ
  unit : Option (List Char)
  item : Option (List Char)
  note : Option (List Char)
deriving DecidableEq

/-- A normalized step `{ n, text }`. -/
structure Step where
  n : ℕ
  text : List Char
deriving DecidableEq

/-- The `units` enum of the Recipe schema. -/
inductive Units where
  | metric
  | us
deriving DecidableEq

structure Yield where
  servings : Option ℚ
  original : Option (List Char)
deriving DecidableEq

structure RecipeTime where
  prep : Option ℚ
  cook : Option ℚ
  total : Option ℚ
deriving DecidableEq

/-- `dietFlags`: optional booleans, never populated by this core. -/
structure DietFlags where
  vegan : Option Bool := none
  vegetarian : Option Bool := none
  glutenFree : Option Bool := none
  dairyFree : Option Bool := none
deriving DecidableEq

structure Source where
  url : List Char
  domain : Option (List Char)
  fetchedAt : List Char
deriving DecidableEq

/-- The canonical Recipe record (`RecipeSchema` in `recipe-schema.ts`).  The
zod schema only validates shapes (its one transformation, the `units`
default, never fires because every producer supplies `units`), so
`RecipeSchema.parse` is the identity on the well-typed records built here
and is not reified separately. -/
structure Recipe where
  title : Option (List Char)
  description : Option (List Char)
  image : Option (List Char)
  author : Option (List Char)
  yieldInfo : Yield
  time : RecipeTime
  ingredients : List Ingredient
  steps : List Step
  tags : List (List Char)
  dietFlags : DietFlags
  units : Units
  source : Source
  llmNotes : Json

/-! ## Unit aliases and Unicode fractions (`src/lib/recipe-utils.ts`) -/

/-- `UNIT_ALIASES` from `src/lib/recipe-utils.ts` (the `Map` literal, in
order). -/
def UNIT_ALIASES : List (List Char × List Char) :=
  [("t".toList, "tsp".toList), ("ts".toList, "tsp".toList),
   ("tsp.".toList, "tsp".toList), ("teaspoon".toList, "tsp".toList),
   ("teaspoons".toList, "tsp".toList), ("tbsp.".toList, "tbsp".toList),
   ("tbs".toList, "tbsp".toList), ("tablespoon".toList, "tbsp".toList),
   ("tablespoons".toList, "tbsp".toList), ("g".toList, "g".toList),
   ("gram".toList, "g".toList), ("grams".toList, "g".toList),
   ("kg".toList, "kg".toList), ("kilogram".toList, "kg".toList),
   ("kilograms".toList, "kg".toList), ("ml".toList, "ml".toList),
   ("milliliter".toList, "ml".toList), ("milliliters".toList, "ml".toList),
   ("l".toList, "l".toList), ("liter".toList, "l".toList),
   ("liters".toList, "l".toList), ("cup".toList, "cup".toList),
   ("cups".toList, "cup".toList), ("oz".toList, "oz".toList),
   ("ounce".toList, "oz".toList), ("ounces".toList, "oz".toList),
   ("lb".toList, "lb".toList), ("lbs".toList, "lb".toList),
   ("pound".toList, "lb".toList), ("pounds".toList, "lb".toList),
   ("clove".toList, "clove".toList), ("cloves".toList, "clove".toList),
   ("can".toList, "can".toList), ("cans".toList, "can".toList),
   ("pinch".toList, "pinch".toList), ("pinches".toList, "pinch".toList),
   ("bunch".toList, "bunch".toList), ("bunches".toList, "bunch".toList),
   ("slice".toList, "slice".toList), ("slices".toList, "slice".toList)]

/-- The additional aliases present only in the later revision
(`src/unnamed/part_002`). -/
def UNIT_ALIASES_V2 : List (List Char × List Char) :=
  UNIT_ALIASES ++
  [("sprig".toList, "sprig".toList), ("sprigs".toList, "sprig".toList),
   ("strip".toList, "strip".toList), ("strips".toList, "strip".toList),
   ("stalk".toList, "stalk".toList), ("stalks".toList, "stalk".toList),
   ("sheet".toList, "sheet".toList), ("sheets".toList, "sheet".toList)]

/-- `replace(/\.$/, '')`: strip one trailing period. -/
def stripTrailingDot (l : List Char) : List Char :=
  match l.reverse with
  | '.' :: rest => rest.reverse
  | _ => l

/-- `normalizeUnit` over a given alias table: lowercase, strip one trailing
period, look up the alias (falling back to the key itself). -/
def normalizeUnitWith (aliases : List (List Char × List Char))
    (u : List Char) : Option (List Char) :=
  if u = [] then none
  else
    let key := stripTrailingDot (lowerStr u)
    match aliases.lookup key with
    | some v => some v
    | none => some key

def normalizeUnit (u : List Char) : Option (List Char) :=
  normalizeUnitWith UNIT_ALIASES u

/-- `UNICODE_FRACTIONS`: the replacement text for each vulgar-fraction
character (`none` for every other character). -/
def fracExpansion (c : Char) : Option (List Char) :=
  if c = '½' then some "1/2".toList
  else if c = '⅓' then some "1/3".toList
  else if c = '⅔' then some "2/3".toList
  else if c = '¼' then some "1/4".toList
  else if c = '¾' then some "3/4".toList
  else if c = '⅕' then some "1/5".toList
  else if c = '⅖' then some "2/5".toList
  else if c = '⅗' then some "3/5".toList
  else if c = '⅘' then some "4/5".toList
  else if c = '⅙' then some "1/6".toList
  else if c = '⅚' then some "5/6".toList
  else if c = '⅛' then some "1/8".toList
  else if c = '⅜' then some "3/8".toList
  else if c = '⅝' then some "5/8".toList
  else if c = '⅞' then some "7/8".toList
  else none

/-- `replaceUnicodeFractions` as in `src/lib/recipe-utils.ts` (lines
168-169): plain substitution, no space insertion. -/
def replaceUnicodeFractions (l : List Char) : List Char :=
  l.flatMap fun c =>
    match fracExpansion c with
    | some rep => rep
    | none => [c]

/-- `replaceUnicodeFractions` as in the later revision
(`src/unnamed/part_002`, lines 176-183): a space is prefixed when the
fraction character is immediately preceded (in the source string) by a
digit.  The `prev` argument carries the previous character of the original
string, matching the `offset`/`src` lookback of the JS callback. -/
def replaceUnicodeFractionsSpacedAux (prev : Option Char) :
    List Char → List Char
  | [] => []
  | c :: rest =>
    let tail := replaceUnicodeFractionsSpacedAux (some c) rest
    match fracExpansion c with
    | some rep =>
      let needsSpace := match prev with
        | some p => isDigitChar p
        | none => false
      (if needsSpace then ' ' :: rep else rep) ++ tail
    | none => c :: tail

def replaceUnicodeFractionsSpaced (l : List Char) : List Char :=
  replaceUnicodeFractionsSpacedAux none l

/-- `replace(/[−–—]/g, '-')`: minus sign, en dash and em dash become `-`. -/
def dashify (l : List Char) : List Char :=
  l.map fun c => if c = '−' || c = '–' || c = '—' then '-' else c

/-! ## Numeric token parsing (`parseNumericToken`, `parseFloat`) -/

/-- JS `parseFloat`: skip leading whitespace, optional sign, digits with an
optional fractional part and an optional exponent; trailing garbage is
ignored; no digits at all gives `NaN` (modelled as `none`). -/
def parseFloatQ (s : List Char) : Option ℚ :=
  let s1 := s.dropWhile isWsChar
  let signVal : ℚ × List Char :=
    match s1 with
    | '-' :: r => (-1, r)
    | '+' :: r => (1, r)
    | _ => (1, s1)
  let sign := signVal.1
  let s2 := signVal.2
  let d1 := s2.takeWhile isDigitChar
  let r1 := s2.dropWhile isDigitChar
  let fracPart : List Char × List Char :=
    match r1 with
    | '.' :: r => (r.takeWhile isDigitChar, r.dropWhile isDigitChar)
    | _ => ([], r1)
  let d2 := fracPart.1
  let r2 := fracPart.2
  if d1 = [] && d2 = [] then none
  else
    let mantissa : ℚ :=
      (natOfDigits d1 : ℚ) + (natOfDigits d2 : ℚ) / ((10 : ℚ) ^ d2.length)
    let expVal : ℤ :=
      match r2 with
      | e :: rest =>
        if e = 'e' || e = 'E' then
          let se : ℤ × List Char :=
            match rest with
            | '-' :: t => (-1, t)
            | '+' :: t => (1, t)
            | _ => (1, rest)
          let ed := se.2.takeWhile isDigitChar
          if ed = [] then 0 else se.1 * (natOfDigits ed : ℤ)
        else 0
      | [] => 0
    some (sign * mantissa * (10 : ℚ) ^ expVal)

/-- `split('/')` destructured as `[num, den]`: text before the first slash
and text between the first and second slash. -/
def slashNumDen (l : List Char) : List Char × List Char :=
  let num := l.takeWhile (· != '/')
  let rest := (l.dropWhile (· != '/')).drop 1
  (num, rest.takeWhile (· != '/'))

/-- `split(/\s+/, 2)` on a trimmed string: the first two
whitespace-separated tokens. -/
def splitWsTwo (l : List Char) : List Char × List Char :=
  let w := l.takeWhile (fun c => !isWsChar c)
  let rest := ((l.dropWhile (fun c => !isWsChar c)).dropWhile isWsChar)
  (w, rest.takeWhile (fun c => !isWsChar c))

/-- The slash-or-`parseFloat` tail of `parseNumericToken` (everything after
the whitespace branch): on `a/b` with finite parts and `b ≠ 0` return the
quotient, otherwise fall through to `parseFloat` on the whole token. -/
def pntCore (t : List Char) : Option ℚ :=
  if t.contains '/' then
    let nd := slashNumDen t
    match parseFloatQ nd.1, parseFloatQ nd.2 with
    | some n, some d => if d ≠ 0 then some (n / d) else parseFloatQ t
    | _, _ => parseFloatQ t
  else parseFloatQ t

/-- One recursive call of `parseNumericToken` on a component of the
whitespace split.  Such a component contains no whitespace (the split
separates at whitespace runs), so the recursive call reduces to the
empty-check plus `pntCore`; the JS recursion therefore bottoms out at depth
one and is modelled by this non-recursive function. -/
def parseNumericTokenPart (x : List Char) : Option ℚ :=
  if x = [] then none else pntCore x

/-- `parseNumericToken` from `src/lib/recipe-utils.ts`: mixed numbers sum
their two components when both parse; otherwise the token falls through to
the slash/`parseFloat` handling. -/
def parseNumericToken (tok : List Char) : Option ℚ :=
  if tok = [] then none
  else
    let t := trimWs tok
    if t = [] then none
    else
      let viaSpace : Option ℚ :=
        if t.contains ' ' then
          let wf := splitWsTwo t
          match parseNumericTokenPart wf.1, parseNumericTokenPart wf.2 with
          | some w, some f => some (w + f)
          | _, _ => none
        else none
      match viaSpace with
      | some q => some q
      | none => pntCore t

/-! ## The quantity / range / unit matchers

`numberPattern` is `(?:\d+\s+\d+/\d+|\d+/\d+|\d*\.\d+|\d+)`.  In every
alternative each repetition is followed by a character class disjoint from
the repeated one (digits vs whitespace vs `/` vs `.`), so the backtracking
regex engine can only ever take the maximal (greedy) repetition, and
ordered first-match alternation below reproduces the engine exactly.  The
same disjointness holds between a matched number and the range separator
(`-`, en/em dash, `to`), so no cross-token backtracking can occur either. -/

/-- Alternative `\d+\s+\d+/\d+` (mixed number); the captured token keeps
the original whitespace characters. -/
def numAlt1 (s : List Char) : Option (List Char × List Char) :=
  let d1 := s.takeWhile isDigitChar
  if d1 = [] then none
  else
    let r1 := s.dropWhile isDigitChar
    let w := r1.takeWhile isWsChar
    if w = [] then none
    else
      let r2 := r1.dropWhile isWsChar
      let d2 := r2.takeWhile isDigitChar
      if d2 = [] then none
      else
        match r2.dropWhile isDigitChar with
        | '/' :: r3 =>
          let d3 := r3.takeWhile isDigitChar
          if d3 = [] then none
          else some (d1 ++ w ++ d2 ++ '/' :: d3, r3.dropWhile isDigitChar)
        | _ => none

/-- Alternative `\d+/\d+` (simple fraction). -/
def numAlt2 (s : List Char) : Option (List Char × List Char) :=
  let d1 := s.takeWhile isDigitChar
  if d1 = [] then none
  else
    match s.dropWhile isDigitChar with
    | '/' :: r1 =>
      let d2 := r1.takeWhile isDigitChar
      if d2 = [] then none
      else some (d1 ++ '/' :: d2, r1.dropWhile isDigitChar)
    | _ => none

/-- Alternative `\d*\.\d+` (decimal). -/
def numAlt3 (s : List Char) : Option (List Char × List Char) :=
  let d1 := s.takeWhile isDigitChar
  match s.dropWhile isDigitChar with
  | '.' :: r1 =>
    let d2 := r1.takeWhile isDigitChar
    if d2 = [] then none
    else some (d1 ++ '.' :: d2, r1.dropWhile isDigitChar)
  | _ => none

/-- Alternative `\d+` (integer). -/
def numAlt4 (s : List Char) : Option (List Char × List Char) :=
  let d1 := s.takeWhile isDigitChar
  if d1 = [] then none else some (d1, s.dropWhile isDigitChar)

/-- An anchored `numberPattern` match: the token text and the remainder. -/
def matchNum (s : List Char) : Option (List Char × List Char) :=
  numAlt1 s <|> numAlt2 s <|> numAlt3 s <|> numAlt4 s

/-- The range separator `(?:-|–|—|to)` (case-insensitive). -/
def rangeSep : List Char → Option (List Char)
  | '-' :: r => some r
  | '–' :: r => some r
  | '—' :: r => some r
  | c :: o :: r =>
    if (c = 't' || c = 'T') && (o = 'o' || o = 'O') then some r else none
  | _ => none

/-- The anchored `rangeRegex`
`^(NUM)\s*(?:-|–|—|to)\s*(NUM)`: both captured tokens plus the remainder
after the match. -/
def rangeMatch (s : List Char) :
    Option (List Char × List Char × List Char) :=
  match matchNum s with
  | none => none
  | some (t1, r1) =>
    match rangeSep (r1.dropWhile isWsChar) with
    | none => none
    | some r3 =>
      match matchNum (r3.dropWhile isWsChar) with
      | none => none
      | some (t2, r5) => some (t1, t2, r5)

def isUnitTokChar (c : Char) : Bool := isAsciiLetter c || c = '.'

/-- A JS word boundary between a final character and the following one. -/
def boundaryAfter (lastC : Char) (next : Option Char) : Bool :=
  isWordChar lastC != (match next with
    | some c => isWordChar c
    | none => false)

/-- Backtracking search for `^([a-zA-Z\.]+)\b`: the engine takes the
maximal run of letters/periods and then shortens it one character at a time
until the word boundary holds, i.e. it finds the longest non-empty prefix
of the run whose end is a boundary. -/
def unitTokSearch (run : List Char) (next0 : Option Char) : ℕ → Option ℕ
  | 0 => none
  | k + 1 =>
    let lastC := run.getD k ' '
    let next : Option Char :=
      if h : k + 1 < run.length then some (run.get ⟨k + 1, h⟩) else next0
    if boundaryAfter lastC next then some (k + 1)
    else unitTokSearch run next0 k

/-- `rest.match(/^([a-zA-Z\.]+)\b/)`: the matched token and remainder. -/
def unitTok (s : List Char) : Option (List Char × List Char) :=
  let run := s.takeWhile isUnitTokChar
  let rest := s.dropWhile isUnitTokChar
  if run = [] then none
  else
    match unitTokSearch run rest.head? run.length with
    | none => none
    | some k => some (run.take k, run.drop k ++ rest)

/-! ## `parseIngredientLine` (`src/lib/recipe-utils.ts`, lines 202-336) -/

/-- `item.indexOf(',')` split: text before and after the first comma. -/
def splitFirstComma (l : List Char) : Option (List Char × List Char) :=
  if l.contains ',' then
    some (l.takeWhile (· != ','), (l.dropWhile (· != ',')).drop 1)
  else none

/-- `item.replace(/^of\s+/i, '')` guarded by the same test: strip a leading
`of` followed by at least one whitespace character. -/
def stripLeadingOf (l : List Char) : List Char :=
  match l with
  | c1 :: c2 :: rest =>
    if (c1 = 'o' || c1 = 'O') && (c2 = 'f' || c2 = 'F') then
      match rest with
      | c3 :: _ => if isWsChar c3 then rest.dropWhile isWsChar else l
      | [] => l
    else l
  | _ => l

/-- `item.match(/\(([^()]+)\)\s*$/)` (together with the guarding test
`/\([^()]*\)\s*$/`): the final parenthesized group followed only by
whitespace.  Returns the text before the `(` and the raw inner text, which
may be empty — an empty inner corresponds to the test succeeding while the
match (whose inner is `[^()]+`) fails, i.e. the loop `break`.  The match's
`$` anchor forces the group to be the last `)` of the string, so scanning
from the right reproduces the engine's leftmost match. -/
def trailingParenSplit (item : List Char) :
    Option (List Char × List Char) :=
  match (item.reverse).dropWhile isWsChar with
  | ')' :: r =>
    let innerRev := r.takeWhile fun c => c != '(' && c != ')'
    match r.dropWhile (fun c => c != '(' && c != ')') with
    | '(' :: beforeRev => some (beforeRev.reverse, innerRev.reverse)
    | _ => none
  | _ => none

/-- The `while` loop stripping trailing parenthesized remarks into note
fragments (innermost-last, i.e. right-to-left), structured on a fuel
parameter.  Every successful iteration cuts the item at a `(` and so
shortens it by at least the parenthesis pair, hence at most `item.length`
iterations can ever run and the fuel `item.length + 1` used by
`parenNoteLoop` below never reaches the (semantically irrelevant) zero
case. -/
def parenNoteLoopGo : ℕ → List Char → List (List Char) →
    List Char × List (List Char)
  | 0, item, notes => (item, notes)
  | fuel + 1, item, notes =>
    match trailingParenSplit item with
    | none => (item, notes)
    | some (before, rawInner) =>
      if rawInner = [] then (item, notes)
      else
        let inner := trimWs rawInner
        parenNoteLoopGo fuel (trimWs before)
          (if inner = [] then notes else notes ++ [inner])

def parenNoteLoop (item : List Char) (notes : List (List Char)) :
    List Char × List (List Char) :=
  parenNoteLoopGo (item.length + 1) item notes

/-- The hard-coded known-unit list of `parseIngredientLine`. -/
def KNOWN_UNITS : List (List Char) :=
  ["g".toList, "kg".toList, "ml".toList, "l".toList, "cup".toList,
   "oz".toList, "lb".toList, "tsp".toList, "tbsp".toList, "clove".toList,
   "can".toList, "pinch".toList, "bunch".toList, "slice".toList]

/-- The known-unit list of the later revision (`src/unnamed/part_002`). -/
def KNOWN_UNITS_V2 : List (List Char) :=
  KNOWN_UNITS ++
  ["sprig".toList, "strip".toList, "stalk".toList, "sheet".toList]

/-- Cleaning of a single note fragment: strip leading
whitespace/punctuation (`[\s,;()-]+`), trailing asterisks, trailing
whitespace/`)`, then trim. -/
def cleanNote (n : List Char) : List Char :=
  let a := n.dropWhile fun c =>
    isWsChar c || c = ',' || c = ';' || c = '(' || c = ')' || c = '-'
  let b := (a.reverse.dropWhile (· = '*')).reverse
  let c := (b.reverse.dropWhile fun ch => isWsChar ch || ch = ')').reverse
  trimWs c

/-- Final cleanup of the item text: strip trailing asterisks (trimming only
when some were present, as the guarded `slice(...).trim()` does), then
leading whitespace/dash/period/comma, then trailing whitespace/`(`, then
trim. -/
def finishItem (item : List Char) : List Char :=
  if item = [] then item
  else
    let afterStars :=
      if item.getLast? = some '*' then
        trimWs ((item.reverse.dropWhile (· = '*')).reverse)
      else item
    let s1 := afterStars.dropWhile fun c =>
      isWsChar c || c = '-' || c = '–' || c = '—' || c = '.' || c = ','
    let s2 := (s1.reverse.dropWhile fun c => isWsChar c || c = '(').reverse
    trimWs s2

/-- The range branch of `parseIngredientLine`: resulting quantity, note
fragments, and the remainder (already trimmed).  When no range matches the
input is returned unchanged. -/
def rangeStep (prepared : List Char) :
    Option ℚ × List (List Char) × List Char :=
  match rangeMatch prepared with
  | none => (none, [], prepared)
  | some (t1, t2, r) =>
    let minVal := parseNumericToken t1
    let maxVal := parseNumericToken t2
    let qn : Option ℚ × List (List Char) :=
      match minVal, maxVal with
      | some mn, some mx =>
        if min mn mx ≠ max mn mx then
          (some (min mn mx),
           ["range ".toList ++ t1 ++ " - ".toList ++ t2])
        else (some mn, [])
      | some mn, none => (some mn, [])
      | none, _ => (none, [])
    (qn.1, qn.2, trimWs r)

/-- The single-number branch: applied only when the range branch produced
no quantity; consumes the matched token from the remainder. -/
def singleNumberStep (q : Option ℚ) (rest : List Char) :
    Option ℚ × List Char :=
  match q with
  | some _ => (q, rest)
  | none =>
    match matchNum rest with
    | none => (none, rest)
    | some (tok, r) => (parseNumericToken tok, trimWs r)

/-- The unit-token branch over a given alias table and known-unit list:
consume the leading letter run as a unit only when it is a known alias or
canonical unit. -/
def unitStep (aliases : List (List Char × List Char))
    (known : List (List Char)) (rest : List Char) :
    Option (List Char) × List Char :=
  if rest = [] then (none, rest)
  else
    match unitTok rest with
    | none => (none, rest)
    | some (tokRaw, after) =>
      match normalizeUnitWith aliases tokRaw with
      | none => (none, rest)
      | some u =>
        let canonicalKey := stripTrailingDot (lowerStr tokRaw)
        if (aliases.lookup canonicalKey).isSome || u ∈ known then
          (some u, trimWs after)
        else (none, rest)

/-- The comma split of the item: text after the first comma becomes a note
fragment (if non-empty after trimming), text before becomes the item. -/
def commaStep (item : List Char) : List Char × List (List Char) :=
  if item = [] then (item, [])
  else
    match splitFirstComma item with
    | none => (item, [])
    | some (before, after) =>
      let afterT := trimWs after
      (trimWs before, if afterT = [] then [] else [afterT])

/-- Assemble the `note` field: clean each fragment, drop empties, join with
`"; "`. -/
def assembleNote (notes : List (List Char)) : Option (List Char) :=
  let cleaned := (notes.map cleanNote).filter (· ≠ [])
  let joined := List.intercalate "; ".toList cleaned
  if joined = [] then none else some joined

/-- The body of `parseIngredientLine` after the `original` line has been
fixed (every later step is a pure function of `original`). -/
def parseIngredientCore (original : List Char) : Ingredient :=
  let prepared := dashify (replaceUnicodeFractions original)
  let rg := rangeStep prepared
  let qr := singleNumberStep rg.1 rg.2.2
  let ur := unitStep UNIT_ALIASES KNOWN_UNITS qr.2
  let item0 := trimWs ur.2
  let cs := commaStep item0
  let item1 := if cs.1 = [] then cs.1 else stripLeadingOf cs.1
  let pl := parenNoteLoop item1 []
  let item2 := finishItem pl.1
  { original := original
    quantity := qr.1
    unit := ur.1
    item := if item2 = [] then none else some item2
    note := assembleNote (rg.2.1 ++ cs.2 ++ pl.2) }

/-- `parseIngredientLine` from `src/lib/recipe-utils.ts` over character
lists: collapse whitespace, entity-decode (modelled as the identity), then
parse. -/
def parseIngredientLineL (line : List Char) : Option Ingredient :=
  let compact := compactWs line
  if compact = [] then none
  else
    let original := decode compact
    if original = [] then none
    else some (parseIngredientCore original)

def parseIngredientLine (line : String) : Option Ingredient :=
  parseIngredientLineL line.toList

/-! ## `parseIngredientLine` of the later revision (`src/unnamed/part_002`) -/

/-- The leading `^\(([^()]+)\)\s*` match of the later revision's
leading-parenthesis loop (attempted while the text starts with `(`): the
raw inner text (which may be empty, in which case the `[^()]+` match fails
and the loop breaks) and the remainder past the closing parenthesis and
the consumed whitespace. -/
def leadingParenMatch : List Char → Option (List Char × List Char)
  | '(' :: tail =>
    (match tail.dropWhile (fun c => c != '(' && c != ')') with
     | ')' :: after =>
       some (tail.takeWhile (fun c => c != '(' && c != ')'),
             after.dropWhile isWsChar)
     | _ => none)
  | _ => none

/-- The leading-parenthesis loop of the later revision: while the remainder
starts with `(`, match `^\(([^()]+)\)\s*`, record the trimmed inner text,
and trim the remainder past the match.  Structured on a fuel parameter as
in `parenNoteLoopGo`: each iteration consumes at least the parenthesis
pair, so the fuel `rest.length + 1` used by `leadingParenLoop` never
reaches the zero case. -/
def leadingParenLoopGo : ℕ → List Char → List (List Char) →
    List Char × List (List Char)
  | 0, rest, notes => (rest, notes)
  | fuel + 1, rest, notes =>
    match leadingParenMatch rest with
    | none => (rest, notes)
    | some (rawInner, after) =>
      if rawInner = [] then (rest, notes)
      else
        let inner := trimWs rawInner
        leadingParenLoopGo fuel (trimWs after)
          (if inner = [] then notes else notes ++ [inner])

def leadingParenLoop (rest : List Char) (notes : List (List Char)) :
    List Char × List (List Char) :=
  leadingParenLoopGo (rest.length + 1) rest notes

/-- `findCommaOutsideParens` from `src/unnamed/part_002`: index of the
first comma at parenthesis depth zero. -/
def commaScanOutsideParens : List Char → ℕ → Option ℕ
  | [], _ => none
  | c :: rest, depth =>
    if c = '(' then (commaScanOutsideParens rest (depth + 1)).map (· + 1)
    else if c = ')' && depth > 0 then
      (commaScanOutsideParens rest (depth - 1)).map (· + 1)
    else if c = ',' && depth = 0 then some 0
    else (commaScanOutsideParens rest depth).map (· + 1)

/-- The comma split of the later revision, honouring parenthesis depth. -/
def commaStepOutsideParens (item : List Char) :
    List Char × List (List Char) :=
  if item = [] then (item, [])
  else
    match commaScanOutsideParens item 0 with
    | none => (item, [])
    | some i =>
      let afterT := trimWs (item.drop (i + 1))
      (trimWs (item.take i), if afterT = [] then [] else [afterT])

/-- The later-revision parse body (`src/unnamed/part_002`, lines 260-413):
space-inserting fraction normalization, a leading-parenthesis note loop
before unit detection, the extended alias table, trailing-parenthesis
stripping before the comma split, and a depth-aware comma split. -/
def parseIngredientCoreV2 (original : List Char) : Ingredient :=
  let prepared := dashify (replaceUnicodeFractionsSpaced original)
  let rg := rangeStep prepared
  let qr := singleNumberStep rg.1 rg.2.2
  let lp := leadingParenLoop (trimWs qr.2) []
  let ur := unitStep UNIT_ALIASES_V2 KNOWN_UNITS_V2 lp.1
  let item0 := trimWs ur.2
  let tp := parenNoteLoop item0 []
  let cs := commaStepOutsideParens tp.1
  let item1 := if cs.1 = [] then cs.1 else stripLeadingOf cs.1
  let item2 := finishItem item1
  { original := original
    quantity := qr.1
    unit := ur.1
    item := if item2 = [] then none else some item2
    note := assembleNote (rg.2.1 ++ lp.2 ++ tp.2 ++ cs.2) }

def parseIngredientLineV2 (line : String) : Option Ingredient :=
  let compact := compactWs line.toList
  if compact = [] then none
  else
    let original := decode compact
    if original = [] then none
    else some (parseIngredientCoreV2 original)

/-! ## Step normalization (`normalizeSteps`, `isShoutyHeading`) -/

/-- `t.split(/\s+/)` with an explicit state: `some w` while building the
(reversed) current word, `none` while inside a separator run.  Matches the
JS semantics exactly, including `"".split(/\s+/) = [""]` and the empty
first element produced by leading whitespace. -/
def splitWsWordsGo (acc : Option (List Char)) : List Char → List (List Char)
  | [] =>
    (match acc with
     | some w => [w.reverse]
     | none => [[]])
  | c :: rest =>
    match acc, isWsChar c with
    | some w, true => w.reverse :: splitWsWordsGo none rest
    | some w, false => splitWsWordsGo (some (c :: w)) rest
    | none, true => splitWsWordsGo none rest
    | none, false => splitWsWordsGo (some [c]) rest

def splitWsWords (l : List Char) : List (List Char) :=
  splitWsWordsGo (some []) l

/-- `/^for the\b/i`: case-insensitive literal `for the` at the start, with
a word boundary after `the`. -/
def forTheTest (t : List Char) : Bool :=
  match t with
  | c1 :: c2 :: c3 :: c4 :: c5 :: c6 :: c7 :: rest =>
    lowerChar c1 = 'f' && lowerChar c2 = 'o' && lowerChar c3 = 'r' &&
    c4 = ' ' && lowerChar c5 = 't' && lowerChar c6 = 'h' &&
    lowerChar c7 = 'e' &&
    (match rest with
     | [] => true
     | c :: _ => !isWordChar c)
  | _ => false

/-- The `(e|ing)s` continuation of `/^serv(e|ing)s\b/i` when the `e`
alternative fails. -/
def servIngTest (rest : List Char) : Bool :=
  match rest with
  | i :: n :: g :: s :: tail =>
    lowerChar i = 'i' && lowerChar n = 'n' && lowerChar g = 'g' &&
    lowerChar s = 's' &&
    (match tail with
     | [] => true
     | c :: _ => !isWordChar c)
  | _ => false

/-- `/^serv(e|ing)s\b/i`: `serves` or `servings` at the start of the
string, followed by a word boundary.  The `e` alternative is tried first;
since `e` and `i` are distinct, the two alternatives never overlap. -/
def servesTest (t : List Char) : Bool :=
  match t with
  | c1 :: c2 :: c3 :: c4 :: rest =>
    if lowerChar c1 = 's' && lowerChar c2 = 'e' && lowerChar c3 = 'r' &&
        lowerChar c4 = 'v' then
      (match rest with
       | e :: s :: tail =>
         if lowerChar e = 'e' && lowerChar s = 's' then
           (match tail with
            | [] => true
            | c :: _ => !isWordChar c)
         else servIngTest rest
       | _ => servIngTest rest)
    else false
  | _ => false

/-- `isShoutyHeading` from `src/lib/recipe-utils.ts`: a line of at most 4
words whose ASCII letters are all uppercase, or a line starting with
`for the` or `serv(e|ing)s` (case-insensitive). -/
def isShoutyHeading (s : List Char) : Bool :=
  if s = [] then false
  else
    let t := trimWs s
    let letters := t.filter isAsciiLetter
    if (splitWsWords t).length ≤ 4 && letters ≠ [] &&
        letters.all (fun c => !('a' ≤ c && c ≤ 'z')) then true
    else forTheTest t || servesTest t

/-- One element of `normalizeSteps`' input: a string or a `{text}`-shaped
object (a `null`/missing `text` reads as the empty string, exactly as
`s?.text ?? ''`). -/
inductive StepLike where
  | str (s : List Char)
  | obj (text : Option (List Char))

def stepLikeText : StepLike → List Char
  | .str s => s
  | .obj t => t.getD []

/-- The final `.map((text, i) => ({ n: i + 1, text }))`: number the
surviving texts sequentially, the element at offset `i` receiving
`n = start + i + 1`. -/
def numberSteps (start : ℕ) : List (List Char) → List Step
  | [] => []
  | t :: rest => ⟨start + 1, t⟩ :: numberSteps (start + 1) rest

/-- `normalizeSteps` from `src/lib/recipe-utils.ts`: extract the text,
trim and entity-decode it, drop empties and shouty headings, then number
sequentially from 1. -/
def normalizeSteps (arr : List StepLike) : List Step :=
  numberSteps 0
    ((((arr.map stepLikeText).map (fun s => decode (trimWs s))).filter
        (· ≠ [])).filter (fun s => !isShoutyHeading s))

/-! ## Duration parsing (`minutesFromISO8601Duration`) -/

/-- `/P(T|$)/i`: the string contains a `p` immediately followed by a `t`,
or ends in a `p`. -/
def ptTest : List Char → Bool
  | [] => false
  | [c] => c = 'P' || c = 'p'
  | c :: d :: rest =>
    ((c = 'P' || c = 'p') && (d = 'T' || d = 't')) || ptTest (d :: rest)

/-- Candidate selection: an array takes its first string member passing
`/P(T|$)/i`; a plain string stands for itself; anything else (or an empty
string, which is falsy) gives nothing. -/
def isoPick : Json → Option (List Char)
  | .jarr xs =>
    xs.findSome? fun x =>
      match x with
      | .jstr s => if ptTest s then some s else none
      | _ => none
  | .jstr s => if s = [] then none else some s
  | _ => none

/-- One optional `(?:(\d+)X)?` field (case-insensitive letter): the
numeric value (0 when the field is absent) and the remainder.  The digit
run is maximal and the following character must be the field letter; a
shorter digit run would be followed by a digit, never the letter, so the
greedy match is the only possible one. -/
def isoField (letter : Char) (s : List Char) : ℕ × List Char :=
  let d := s.takeWhile isDigitChar
  if d = [] then (0, s)
  else
    match s.dropWhile isDigitChar with
    | c :: rest => if lowerChar c = letter then (natOfDigits d, rest) else (0, s)
    | [] => (0, s)

/-- The group structure after the matched `P`:
`(?:(\d+)W)?(?:(\d+)D)?(?:T(?:(\d+)H)?(?:(\d+)M)?(?:(\d+)S)?)?`, converted
to minutes with seconds rounded half-up. -/
def isoParseAfterP (s : List Char) : ℕ :=
  let w := isoField 'w' s
  let d := isoField 'd' w.2
  let hms : ℕ × ℕ × ℕ :=
    match d.2 with
    | c :: rest =>
      if c = 'T' || c = 't' then
        let h := isoField 'h' rest
        let m := isoField 'm' h.2
        let sec := isoField 's' m.2
        (h.1, m.1, sec.1)
      else (0, 0, 0)
    | [] => (0, 0, 0)
  w.1 * 10080 + d.1 * 1440 + hms.1 * 60 + hms.2.1 + (hms.2.2 + 30) / 60

/-- The unanchored search of
`/P(?:(\d+)W)?(?:(\d+)D)?(?:T...)?/i`: everything after `P` is optional,
so the regex matches at the first `p`/`P` of the string and nowhere
earlier; a string without `p` has no match. -/
def isoScan : List Char → Option ℕ
  | [] => none
  | c :: rest =>
    if c = 'P' || c = 'p' then some (isoParseAfterP rest) else isoScan rest

/-- `minutesFromISO8601Duration` from `src/lib/recipe-utils.ts`. -/
def minutesFromISO8601Duration (dur : Json) : Option ℚ :=
  (isoPick dur).bind fun s => (isoScan s).map fun n => (n : ℚ)

/-! ## String coercion (`toStringCoerce`, `toStringArray`, `String(v)`) -/

/-- Multiplicity of a prime-like factor `p > 1` in `n`. -/
def countFactor (p n : ℕ) : ℕ :=
  if h : 1 < p ∧ 0 < n ∧ n % p = 0 then 1 + countFactor p (n / p) else 0
termination_by n
decreasing_by
  exact Nat.div_lt_self h.2.1 h.1

/-- `String(v)` on a number, i.e. the platform's double-to-decimal
rendering.  Exact for every rational with a finite decimal expansion
(which covers every value a JS double can hold in this model); a rational
with another denominator — unreachable from actual JS numbers — is
rendered as `num/den`. -/
def ratToDecimalString (q : ℚ) : List Char :=
  let sign : List Char := if q < 0 then ['-'] else []
  let n := q.num.natAbs
  let d := q.den
  let a := countFactor 2 d
  let b := countFactor 5 d
  let k := max a b
  if d = 2 ^ a * 5 ^ b then
    if k = 0 then sign ++ Nat.toDigits 10 n
    else
      let scaled := n * 10 ^ k / d
      let digits := Nat.toDigits 10 scaled
      if digits.length ≤ k then
        sign ++ ('0' :: '.' :: List.replicate (k - digits.length) '0') ++ digits
      else
        sign ++ digits.take (digits.length - k) ++ '.' ::
          digits.drop (digits.length - k)
  else
    sign ++ Nat.toDigits 10 n ++ '/' :: Nat.toDigits 10 d

/-- `toStringCoerce` from `src/lib/recipe-utils.ts`: strings pass through,
numbers are stringified, arrays join their stringy/`name`/`text` parts
with spaces (`null` if nothing yields content), objects yield their string
`name` or `text` field. -/
def toStringCoerce (v : Json) : Option (List Char) :=
  match v with
  | .jnull => none
  | .jstr s => some s
  | .jnum q => some (ratToDecimalString q)
  | .jarr xs =>
    let parts := (xs.map fun x =>
      match x with
      | .jstr s => s
      | .jobj _ =>
        (match x.getStr "name".toList with
         | some n => n
         | none =>
           match x.getStr "text".toList with
           | some t => t
           | none => [])
      | .jarr _ => []
      | _ => []).filter (· ≠ [])
    if parts = [] then none else some (List.intercalate " ".toList parts)
  | .jobj _ =>
    (match v.getStr "name".toList with
     | some n => some n
     | none =>
       match v.getStr "text".toList with
       | some t => some t
       | none => none)
  | .jbool _ => none

/-- `split(/,|\n/)`: each single comma or newline is a separator. -/
def splitCommaNlGo (acc : List Char) : List Char → List (List Char)
  | [] => [acc.reverse]
  | c :: rest =>
    if c = ',' || c = '\n' then acc.reverse :: splitCommaNlGo [] rest
    else splitCommaNlGo (c :: acc) rest

def splitCommaNl (l : List Char) : List (List Char) :=
  splitCommaNlGo [] l

/-- `toStringArray` from `src/lib/recipe-utils.ts`: arrays map each
element to its string/`text`/`name` representation, strings split on
commas/newlines; all entries trimmed, empties dropped. -/
def toStringArray (v : Json) : List (List Char) :=
  match v with
  | .jarr xs =>
    (((xs.flatMap fun x =>
        match x with
        | .jstr s => [s]
        | .jobj _ | .jarr _ =>
          (match x.getStr "text".toList with
           | some t => [t]
           | none =>
             match x.getStr "name".toList with
             | some n => [n]
             | none => [])
        | _ => []).map trimWs).filter (· ≠ []))
  | .jstr s => ((splitCommaNl s).map trimWs).filter (· ≠ [])
  | _ => []

def Json.isNull : Json → Bool
  | .jnull => true
  | _ => false

/-- `String(v)` for an arbitrary JSON value, as applied to ingredient list
entries.  Array elements render recursively (with `null` elements as the
empty string, per `Array.prototype.toString`). -/
def jsToString : Json → List Char
  | .jnull => "null".toList
  | .jbool b => if b then "true".toList else "false".toList
  | .jnum q => ratToDecimalString q
  | .jstr s => s
  | .jarr xs =>
    List.intercalate ",".toList
      (xs.attach.map fun x =>
        if x.1.isNull then [] else jsToString x.1)
  | .jobj _ => "[object Object]".toList
termination_by j => sizeOf j
decreasing_by
  have := List.sizeOf_lt_of_mem x.2
  simp only [Json.jarr.sizeOf_spec]
  omega

/-! ## Unit-system inference and the structured-data normalizer
(`src/lib/normalizers.js`) -/

def METRIC_UNITS : List (List Char) :=
  ["g".toList, "kg".toList, "ml".toList, "l".toList]

def US_UNITS : List (List Char) :=
  ["cup".toList, "oz".toList, "lb".toList]

def NEUTRAL_UNITS : List (List Char) :=
  ["tsp".toList, "tbsp".toList, "pinch".toList, "bunch".toList,
   "slice".toList, "clove".toList, "can".toList]

/-- The observed units: non-null, non-empty (`filter(Boolean)`), lowercased. -/
def observedUnits (ingredients : List Ingredient) : List (List Char) :=
  (ingredients.map Ingredient.unit).filterMap fun u =>
    match u with
    | some s => if s = [] then none else some (lowerStr s)
    | none => none

/-- `inferUnitsFromIngredients` from `src/lib/normalizers.js`. -/
def inferUnitsFromIngredients (ingredients : List Ingredient) : Units :=
  let units := observedUnits ingredients
  if units = [] then .metric
  else
    let metricOnly := units.all fun u =>
      METRIC_UNITS.contains u || NEUTRAL_UNITS.contains u
    let usOnly := units.all fun u =>
      US_UNITS.contains u || NEUTRAL_UNITS.contains u
    if metricOnly && !usOnly then .metric
    else if usOnly && !metricOnly then .us
    else .metric

/-- The `image` field resolution: string | `{url}` | array of either. -/
def imageFromJson (j : Json) : Option (List Char) :=
  match j with
  | .jarr xs =>
    (match xs.head? with
     | some (.jstr s) => some s
     | some x =>
       (match x.getStr "url".toList with
        | some u => if u = [] then none else some u
        | none => none)
     | none => none)
  | .jstr s => some s
  | .jobj _ =>
    (match j.getStr "url".toList with
     | some u => if u = [] then none else some u
     | none => none)
  | _ => none

/-- The `author` field resolution: string | `{name}` | array. -/
def authorFromJson (j : Json) : Option (List Char) :=
  match j with
  | .jstr s => some s
  | .jarr xs =>
    (match xs.head? with
     | some x =>
       (match x.getStr "name".toList with
        | some n => if n = [] then none else some n
        | none => none)
     | none => none)
  | .jobj _ =>
    (match j.getStr "name".toList with
     | some n => if n = [] then none else some n
     | none => none)
  | _ => none

/-- The `\b(\d+)\s+\1\b` match attempted at the current position (the
caller has already established the leading word boundary): the repeated
number collapsed to one copy plus the remainder.  Both digit runs and the
whitespace run are forced to be maximal because the following required
character is outside the repeated class. -/
def dedupeTryHere (l : List Char) : Option (List Char) :=
  let a := l.takeWhile isDigitChar
  if a = [] then none
  else
    let r1 := l.dropWhile isDigitChar
    if r1.takeWhile isWsChar = [] then none
    else
      let r2 := r1.dropWhile isWsChar
      if a.isPrefixOf r2 then
        let r3 := r2.drop a.length
        if (match r3.head? with
            | some c => !isWordChar c
            | none => true) then some (a ++ r3)
        else none
      else none

/-- `replace(/\b(\d+)\s+\1\b/, '$1')`: replace the first occurrence of a
repeated number (`"4 4 people"` → `"4 people"`). -/
def dedupeNumberPairAux (prev : Option Char) : List Char → List Char
  | [] => []
  | c :: rest =>
    let boundaryOk : Bool :=
      match prev with
      | some p => !isWordChar p
      | none => true
    if boundaryOk then
      match dedupeTryHere (c :: rest) with
      | some replaced => replaced
      | none => c :: dedupeNumberPairAux (some c) rest
    else c :: dedupeNumberPairAux (some c) rest

def dedupeNumberPair (l : List Char) : List Char :=
  dedupeNumberPairAux none l

/-- The first `\d+` group of
`/(\d+)\s*(servings?|serves?|people|portion|portions)?/i`: the unit suffix
is optional, so the match is simply the first digit run. -/
def firstDigitGroup : List Char → Option (List Char)
  | [] => none
  | c :: rest =>
    if isDigitChar c then some ((c :: rest).takeWhile isDigitChar)
    else firstDigitGroup rest

/-- `split(/\n+|\r+/)` with an explicit state: each maximal run of
newlines or of carriage returns is one separator (`"a\r\nb"` therefore
splits as `["a", "", "b"]`, the `\r` run and the `\n` run being distinct
separators).  `skip = some r` while consuming a run of `r`. -/
def splitNlRunsGo (skip : Option Char) (acc : List Char) :
    List Char → List (List Char)
  | [] => [acc.reverse]
  | c :: rest =>
    match skip with
    | some r =>
      if c = r then splitNlRunsGo (some r) [] rest
      else if c = '\n' || c = '\r' then [] :: splitNlRunsGo (some c) [] rest
      else splitNlRunsGo none [c] rest
    | none =>
      if c = '\n' || c = '\r' then
        acc.reverse :: splitNlRunsGo (some c) [] rest
      else splitNlRunsGo none (c :: acc) rest

def splitNlRuns (l : List Char) : List (List Char) :=
  splitNlRunsGo none [] l

/-- `step.text || step.name` for a step or list-element object, restricted
to string-valued fields (a non-string truthy value here would crash
`normalizeSteps` downstream; real pages carry strings). -/
def jsonTextName (x : Json) : Option (List Char) :=
  match x.getStr "text".toList with
  | some t =>
    if t = [] then
      (match x.getStr "name".toList with
       | some n => if n = [] then none else some n
       | none => none)
    else some t
  | none =>
    (match x.getStr "name".toList with
     | some n => if n = [] then none else some n
     | none => none)

/-- `recipeInstructions` flattening: a string splits on newline runs; an
array collects each string, each object's `text`/`name`, and the same for
the members of a nested `itemListElement` array. -/
def collectInstructionSteps (inst : Json) : List (List Char) :=
  match inst with
  | .jstr s => ((splitNlRuns s).map trimWs).filter (· ≠ [])
  | .jarr steps =>
    (steps.flatMap fun step =>
      match step with
      | .jstr s => [s]
      | .jobj _ | .jarr _ =>
        let t : List (List Char) :=
          match jsonTextName step with
          | some x => [x]
          | none => []
        let lis : List (List Char) :=
          match step.get "itemListElement".toList with
          | .jarr lis =>
            lis.flatMap fun li =>
              match li with
              | .jstr s => [s]
              | .jobj _ | .jarr _ =>
                (match jsonTextName li with
                 | some x => [x]
                 | none => [])
              | _ => []
          | _ => []
        t ++ lis
      | _ => []).filter (· ≠ [])
  | _ => []

/-- The structured-data object consumed by `normalizeFromJSONLD`, with one
`Json` field per property the normalizer reads (a missing property is
`jnull`). -/
structure JsonLdObj where
  name : Json := .jnull
  description : Json := .jnull
  image : Json := .jnull
  author : Json := .jnull
  recipeYield : Json := .jnull
  prepTime : Json := .jnull
  cookTime : Json := .jnull
  totalTime : Json := .jnull
  recipeInstructions : Json := .jnull
  recipeIngredient : Json := .jnull
  ingredients : Json := .jnull
  keywords : Json := .jnull
  recipeCategory : Json := .jnull
  recipeCuisine : Json := .jnull

/-- `recipeIngredient` (preferred) or `ingredients` (fallback), when an
array. -/
def ingredientStrings (obj : JsonLdObj) : List Json :=
  match obj.recipeIngredient with
  | .jarr xs => xs
  | _ =>
    match obj.ingredients with
    | .jarr xs => xs
    | _ => []

/-- `normalizeFromJSONLD` from `src/lib/normalizers.js`.  `sourceUrl` is
the page URL; `dom` is the platform URL parser (`new URL(url).hostname`,
`undefined` on parse failure) and `now` the clock reading
(`new Date().toISOString()`), both passed explicitly.  `RecipeSchema.parse`
only validates the already well-typed record (see `Recipe`). -/
def normalizeFromJSONLD (obj : JsonLdObj) (sourceUrl : List Char)
    (dom : List Char → Option (List Char)) (now : List Char) : Recipe :=
  let title := (toStringCoerce obj.name).map decode
  let description := (toStringCoerce obj.description).map decode
  let image := imageFromJson obj.image
  let author := authorFromJson obj.author
  let rawYield := toStringCoerce obj.recipeYield
  let yieldOriginal : Option (List Char) :=
    match rawYield with
    | some s => if s = [] then none else some (trimWs (dedupeNumberPair s))
    | none => none
  let servings : Option ℚ :=
    match obj.recipeYield with
    | .jnum q => some q
    | _ =>
      match yieldOriginal with
      | some yo => (firstDigitGroup yo).map fun d => (natOfDigits d : ℚ)
      | none => none
  let prep := minutesFromISO8601Duration obj.prepTime
  let cook := minutesFromISO8601Duration obj.cookTime
  let total := jsNullish (minutesFromISO8601Duration obj.totalTime)
    (orNullNum (prep.getD 0 + cook.getD 0))
  let stepStrings := collectInstructionSteps obj.recipeInstructions
  let ingredients :=
    (ingredientStrings obj).filterMap fun s => parseIngredientLineL (jsToString s)
  let steps := normalizeSteps (stepStrings.map .str)
  let tags :=
    (toStringArray obj.keywords ++ toStringArray obj.recipeCategory ++
      toStringArray obj.recipeCuisine).map lowerStr
  { title := jsOrStr title none
    description := jsOrStr description none
    image := jsOrStr image none
    author := jsOrStr author none
    yieldInfo := { servings := servings, original := jsOrStr yieldOriginal none }
    time := { prep := clampInt prep, cook := clampInt cook,
              total := clampInt total }
    ingredients := ingredients
    steps := steps
    tags := tags
    dietFlags := {}
    units := inferUnitsFromIngredients ingredients
    source := { url := sourceUrl, domain := dom sourceUrl, fetchedAt := now }
    llmNotes := .jnull }

/-- The heuristic-extraction record (`extractHeuristics` output). -/
structure HeuristicExtraction where
  title : Option (List Char) := none
  image : Option (List Char) := none
  ingredients : List (List Char) := []
  steps : List (List Char) := []

/-- `normalizeFromHeuristics` from `src/lib/normalizers.js`. -/
def normalizeFromHeuristics (data : HeuristicExtraction)
    (sourceUrl : List Char) (dom : List Char → Option (List Char))
    (now : List Char) : Recipe :=
  let ingredients := data.ingredients.filterMap parseIngredientLineL
  let steps := normalizeSteps (data.steps.map .str)
  { title := jsOrStr data.title none
    description := none
    image := jsOrStr data.image none
    author := none
    yieldInfo := { servings := none, original := none }
    time := { prep := none, cook := none, total := none }
    ingredients := ingredients
    steps := steps
    tags := []
    dietFlags := {}
    units := inferUnitsFromIngredients ingredients
    source := { url := sourceUrl, domain := dom sourceUrl, fetchedAt := now }
    llmNotes := .jobj [("extracted".toList, .jstr "heuristics".toList)] }

/-! ## LLM extraction and enrichment merge (`src/lib/llm.ts`) -/

/-- A schema-parsed LLM extraction response (`LLMExtractionSchema`): the
array fields carry zod defaults `[]`, the scalar fields are
nullable/optional. -/
structure LLMExtraction where
  title : Option (List Char) := none
  description : Option (List Char) := none
  servingsText : Option (List Char) := none
  servings : Option ℚ := none
  prepMinutes : Option ℚ := none
  cookMinutes : Option ℚ := none
  totalMinutes : Option ℚ := none
  ingredients : List (List Char) := []
  steps : List (List Char) := []
  notes : List (List Char) := []
  tags : List (List Char) := []
  cuisines : List (List Char) := []
  methods : List (List Char) := []

/-- A schema-parsed LLM enrichment response (`LLMEnrichmentSchema`): every
field optional, the tag lists possibly absent (`undefined`, hence
`Option`). -/
structure LLMEnrichment where
  title : Option (List Char) := none
  description : Option (List Char) := none
  servingsText : Option (List Char) := none
  servings : Option ℚ := none
  prepMinutes : Option ℚ := none
  cookMinutes : Option ℚ := none
  totalMinutes : Option ℚ := none
  tags : Option (List (List Char)) := none
  cuisines : Option (List (List Char)) := none
  methods : Option (List (List Char)) := none

/-- `Set.add` with JS insertion-order semantics. -/
def setAdd (acc : List (List Char)) (s : List Char) : List (List Char) :=
  if s ∈ acc then acc else acc ++ [s]

/-- The tag-collection loop shared by `toRecipe` and `mergeEnrichment`:
for each raw tag, `trim().toLowerCase()`, skip empties, insert into the
set. -/
def addCleanTags (acc : List (List Char)) (raw : List (List Char)) :
    List (List Char) :=
  raw.foldl (fun acc t =>
    let c := lowerStr (trimWs t)
    if c = [] then acc else setAdd acc c) acc

/-- `/\bserves?\b/i` tried at the current position: `serve` with an
optional `s` (the greedy `s?` is tried first) followed by a word boundary. -/
def serveHere (l : List Char) : Bool :=
  match l with
  | c1 :: c2 :: c3 :: c4 :: c5 :: rest =>
    if lowerChar c1 = 's' && lowerChar c2 = 'e' && lowerChar c3 = 'r' &&
        lowerChar c4 = 'v' && lowerChar c5 = 'e' then
      (match rest with
       | s :: tail =>
         if lowerChar s = 's' then
           (match tail with
            | [] => true
            | c :: _ => !isWordChar c)
         else !isWordChar s
       | [] => true)
    else false
  | _ => false

/-- `/\bserves?\b/i.test(line)`: an unanchored word-boundary search. -/
def containsWordServe (line : List Char) : Bool :=
  (go none line)
where
  go (prev : Option Char) : List Char → Bool
    | [] => false
    | c :: rest =>
      let boundaryOk : Bool :=
        match prev with
        | some p => !isWordChar p
        | none => true
      (boundaryOk && serveHere (c :: rest)) || go (some c) rest

/-- `toRecipe` from `src/lib/llm.ts`: build a Recipe from an LLM
extraction response (plus heuristics fallbacks).  `dom`/`now` are the
explicit platform oracles as in `normalizeFromJSONLD`. -/
def toRecipe (data : LLMExtraction) (url : List Char)
    (heuristics : Option HeuristicExtraction)
    (dom : List Char → Option (List Char)) (now : List Char) : Recipe :=
  let title := jsNullish data.title
    (match heuristics with
     | some h => h.title
     | none => none)
  let servings := data.servings
  let yieldOriginal := jsOrStr (data.servingsText.map trimWs)
    (jsOrStr
      (match heuristics with
       | some h => h.ingredients.find? containsWordServe
       | none => none) none)
  let ingredients := data.ingredients.filterMap parseIngredientLineL
  let steps := normalizeSteps (data.steps.map .str)
  let tags := addCleanTags [] (data.tags ++ data.cuisines ++ data.methods)
  { title := title
    description := data.description
    image :=
      match heuristics with
      | some h => h.image
      | none => none
    author := none
    yieldInfo := { servings := clampInt servings, original := yieldOriginal }
    time := { prep := clampInt data.prepMinutes
              cook := clampInt data.cookMinutes
              total := clampInt (jsNullish data.totalMinutes
                (orNullNum (data.prepMinutes.getD 0 + data.cookMinutes.getD 0))) }
    ingredients := ingredients
    steps := steps
    tags := tags
    dietFlags := {}
    units := inferUnitsFromIngredients ingredients
    source := { url := url, domain := dom url, fetchedAt := now }
    llmNotes := .jobj
      [("extracted".toList, .jstr "llm".toList),
       ("notes".toList, .jarr ((data.notes.filter (· ≠ [])).map .jstr))] }

/-- `mergeEnrichment` from `src/lib/llm.ts` (lines 223-292): tags are
unioned into a `Set` seeded from the base tags; every scalar field takes
the enrichment's value when one is proposed (`!= null` / `??`) and the
base's otherwise; `total` falls back to `prep+cook` (when positive) and
then to the base total.  The trailing `RecipeSchema.parse` validates the
already well-typed record (see `Recipe`). -/
def mergeEnrichment (base : Recipe) (e : LLMEnrichment) : Recipe :=
  let mergedTags := addCleanTags (base.tags.foldl setAdd [])
    (e.tags.getD [] ++ e.cuisines.getD [] ++ e.methods.getD [])
  let servings :=
    match e.servings with
    | some q => clampInt (some q)
    | none => base.yieldInfo.servings
  let total0 :=
    match e.totalMinutes with
    | some q => clampInt (some q)
    | none => base.time.total
  let prep :=
    match e.prepMinutes with
    | some q => clampInt (some q)
    | none => base.time.prep
  let cook :=
    match e.cookMinutes with
    | some q => clampInt (some q)
    | none => base.time.cook
  let computedTotal :=
    match total0 with
    | some t => some t
    | none => orNullNum (prep.getD 0 + cook.getD 0)
  let finalTotal :=
    match computedTotal with
    | some t => some t
    | none => base.time.total
  { base with
    title := jsNullish e.title base.title
    description := jsNullish e.description base.description
    yieldInfo :=
      { servings := servings
        original :=
          match e.servingsText with
          | some s => if trimWs s = [] then base.yieldInfo.original
                      else some (trimWs s)
          | none => base.yieldInfo.original }
    time := { prep := prep, cook := cook, total := finalTotal }
    tags := mergedTags }

/-! ## Concrete data for witnesses and counterexamples -/

/-- A URL-parser oracle that fails on every input (its value is irrelevant
to every property below). -/
def dom0 : List Char → Option (List Char) := fun _ => none

/-- An uppercase ASCII letter. -/
def isUpperAscii (c : Char) : Bool := 'A' ≤ c && c ≤ 'Z'

/-- A lowercase string: one containing no uppercase ASCII letter (the
ASCII reading of the spec's "lowercase strings"). -/
def isLowerStr (s : List Char) : Bool := s.all fun c => !isUpperAscii c

/-- A structured object carrying only `prepTime: "PT30M"`. -/
def jsonLdPrepOnly : JsonLdObj := { prepTime := .jstr "PT30M".toList }

/-- A structured object whose `keywords` repeat a tag. -/
def jsonLdDupTags : JsonLdObj := { keywords := .jstr "easy, easy".toList }

/-- An ingredient record carrying only a unit, for the unit-inference
examples. -/
def unitOnlyIngredient (u : List Char) : Ingredient :=
  { original := "x".toList, quantity := none, unit := some u,
    item := none, note := none }

/-- An ingredient record with no unit. -/
def noUnitIngredient : Ingredient :=
  { original := "x".toList, quantity := none, unit := none,
    item := none, note := none }

/-- The step list of the heading-exclusion example. -/
def demoStepsArr : List StepLike :=
  [.str "FOR THE SAUCE".toList,
   .str "Simmer the tomatoes gently for an hour.".toList,
   .str "Season and serve.".toList]

/-- A base Recipe with a present title, for the enrichment examples. -/
def demoBase : Recipe :=
  { title := some "Beef stew".toList
    description := none
    image := none
    author := none
    yieldInfo := { servings := some 2, original := none }
    time := { prep := some 10, cook := none, total := none }
    ingredients := []
    steps := []
    tags := ["easy".toList]
    dietFlags := {}
    units := .metric
    source := { url := "u".toList, domain := none, fetchedAt := "t".toList }
    llmNotes := .jnull }

/-- An enrichment response proposing a different title. -/
def demoEnrichment : LLMEnrichment := { title := some "Irish stew".toList }

/-! ## Claim theorems -/

theorem isoScan_eq_none (l : List Char) :
    isoScan l = none ↔ ∀ c ∈ l, ¬(c = 'P' ∨ c = 'p') := by
  induction l with
  | nil => simp [isoScan]
  | cons c rest ih =>
    by_cases hc : (c = 'P' || c = 'p') = true
    · simp only [isoScan, hc, if_true]
      simp only [Bool.or_eq_true, decide_eq_true_eq] at hc
      constructor
      · intro h
        exact absurd h (by simp)
      · intro hall
        exact absurd hc (hall c (List.mem_cons_self c rest))
    · simp only [isoScan, hc, if_false]
      simp only [Bool.or_eq_true, decide_eq_true_eq] at hc
      push_neg at hc
      simp [ih, hc]

/-- C3: `parseIngredientLine` satisfies the five literal cases of the
spec's quantity-parsing table: `"1 1/2 cups flour"` gives quantity 1.5,
unit `cup`, item `flour`, no note; `"2 tbsp olive oil, divided"` gives
quantity 2, unit `tbsp`, item `olive oil`, note `divided`;
`"3-4 cloves garlic, minced"` gives quantity 3, unit `clove`, item
`garlic`, and a note containing both `range 3 - 4` and `minced`;
`"Salt to taste"` parses with null quantity and unit and the whole line as
the item; `"½ cup sugar"` gives quantity 0.5, unit `cup`, item `sugar`. -/
theorem parseIngredientLine_quantity_table :
    parseIngredientLine "1 1/2 cups flour" =
      some { original := "1 1/2 cups flour".toList, quantity := some (3/2 : ℚ),
             unit := some "cup".toList, item := some "flour".toList,
             note := none } ∧
    parseIngredientLine "2 tbsp olive oil, divided" =
      some { original := "2 tbsp olive oil, divided".toList,
             quantity := some 2, unit := some "tbsp".toList,
             item := some "olive oil".toList,
             note := some "divided".toList } ∧
    (parseIngredientLine "3-4 cloves garlic, minced" =
      some { original := "3-4 cloves garlic, minced".toList,
             quantity := some 3, unit := some "clove".toList,
             item := some "garlic".toList,
             note := some "range 3 - 4; minced".toList } ∧
     "range 3 - 4".toList <:+: "range 3 - 4; minced".toList ∧
     "minced".toList <:+: "range 3 - 4; minced".toList) ∧
    parseIngredientLine "Salt to taste" =
      some { original := "Salt to taste".toList, quantity := none,
             unit := none, item := some "Salt to taste".toList,
             note := none } ∧
    parseIngredientLine "½ cup sugar" =
      some { original := "½ cup sugar".toList, quantity := some (1/2 : ℚ),
             unit := some "cup".toList, item := some "sugar".toList,
             note := none } := by
  refine ⟨by decide, by decide, ⟨by decide, by decide, by decide⟩,
    by decide, by decide⟩

/-- C8 counterexample: in `src/lib/recipe-utils.ts` the fraction
substitution inserts no space, so the line `"1½ cup sugar"` is read as
`"11/2 cup sugar"` and parses with quantity 11/2 = 5.5 — not as the mixed
number `1 1/2` (quantity 1.5) the claim asserts. -/
theorem replaceUnicodeFractions_no_space_counterexample :
    replaceUnicodeFractions "1½ cup sugar".toList = "11/2 cup sugar".toList ∧
    (parseIngredientLine "1½ cup sugar").map Ingredient.quantity =
      some (some (11/2 : ℚ)) ∧
    ¬ ((parseIngredientLine "1½ cup sugar").map Ingredient.quantity =
      some (some (3/2 : ℚ))) := by
  refine ⟨by decide, by decide, by decide⟩

/-- C8 amended: the space-inserting fraction normalization is the later
revision's (`src/unnamed/part_002`): there `"1½"` becomes `"1 1/2"` and the
line parses with quantity 1.5, while the `src/lib/recipe-utils.ts` version
substitutes without a space, so `"1½ cup sugar"` parses there with
quantity 11/2. -/
theorem replaceUnicodeFractions_spaced_vs_plain :
    replaceUnicodeFractionsSpaced "1½ cup sugar".toList =
      "1 1/2 cup sugar".toList ∧
    (parseIngredientLineV2 "1½ cup sugar").map Ingredient.quantity =
      some (some (3/2 : ℚ)) ∧
    (parseIngredientLineV2 "1½ cup sugar").map Ingredient.unit =
      some (some "cup".toList) ∧
    replaceUnicodeFractions "1½ cup sugar".toList = "11/2 cup sugar".toList ∧
    (parseIngredientLine "1½ cup sugar").map Ingredient.quantity =
      some (some (11/2 : ℚ)) ∧
    replaceUnicodeFractionsSpaced "½ cup".toList = "1/2 cup".toList := by
  refine ⟨by decide, by decide, by decide, by decide, by decide, by decide⟩

/-- C6 counterexample: `minutesFromISO8601Duration` does not return null
on every non-duration string — the match regex succeeds on any string
containing a `p` (all its groups are optional), and with no numeric fields
the result is 0: `"soup"` yields 0, not null. -/
theorem minutesFromISO8601Duration_soup_counterexample :
    minutesFromISO8601Duration (.jstr "soup".toList) = some 0 ∧
    ¬ minutesFromISO8601Duration (.jstr "soup".toList) = none := by
  exact ⟨by decide, by decide⟩

/-- C6 amended: `"PT1H30M"` maps to 90 and `"P0DT45M"` to 45; a string is
mapped to null exactly when it contains no `p`/`P` (so that the duration
regex has no match at all); a match with no numeric fields yields 0, as on
`"soup"`. -/
theorem minutesFromISO8601Duration_spec :
    minutesFromISO8601Duration (.jstr "PT1H30M".toList) = some 90 ∧
    minutesFromISO8601Duration (.jstr "P0DT45M".toList) = some 45 ∧
    (∀ s : List Char,
      (minutesFromISO8601Duration (.jstr s) = none ↔
        ∀ c ∈ s, ¬(c = 'P' ∨ c = 'p'))) ∧
    minutesFromISO8601Duration (.jstr "soup".toList) = some 0 := by
  refine ⟨by decide, by decide, ?_, by decide⟩
  intro s
  by_cases hs : s = []
  · subst hs
    simp [minutesFromISO8601Duration, isoPick]
  · have h1 : minutesFromISO8601Duration (.jstr s) =
        (isoScan s).map (fun n => (n : ℚ)) := by
      simp [minutesFromISO8601Duration, isoPick, hs]
    rw [h1, ← isoScan_eq_none s]
    cases isoScan s <;> simp

/-- C4 counterexample: with no parseable `totalTime` and only `prepTime`
present (`"PT30M"`), `normalizeFromJSONLD` sets `time.total` to 30 — the
claim's "null when only one of prep/cook is present" fails. -/
theorem jsonld_total_prep_only_counterexample :
    minutesFromISO8601Duration jsonLdPrepOnly.totalTime = none ∧
    minutesFromISO8601Duration jsonLdPrepOnly.cookTime = none ∧
    (normalizeFromJSONLD jsonLdPrepOnly "u".toList dom0 "t".toList).time.total
      = some 30 ∧
    ¬ (normalizeFromJSONLD jsonLdPrepOnly "u".toList dom0 "t".toList).time.total
      = none := by
  refine ⟨by decide, by decide, by decide, by decide⟩

/-- C5 counterexample: `normalizeFromJSONLD` lowercases tags but does not
de-duplicate them — keywords `"easy, easy"` produce the tag list
`["easy", "easy"]`, which contains two case-insensitively equal entries. -/
theorem jsonld_tags_duplicate_counterexample :
    (normalizeFromJSONLD jsonLdDupTags "u".toList dom0 "t".toList).tags =
      ["easy".toList, "easy".toList] ∧
    ¬ List.Pairwise (fun a b => lowerStr a ≠ lowerStr b)
      (normalizeFromJSONLD jsonLdDupTags "u".toList dom0 "t".toList).tags := by
  refine ⟨by decide, by decide⟩

/-- C1 counterexample: `mergeEnrichment` overwrites a present title — with
base title `"Beef stew"` and an enrichment proposing `"Irish stew"`, the
merged Recipe's title is the enrichment's, not the base's. -/
theorem mergeEnrichment_title_overwrite_counterexample :
    demoBase.title = some "Beef stew".toList ∧
    demoEnrichment.title = some "Irish stew".toList ∧
    (mergeEnrichment demoBase demoEnrichment).title =
      some "Irish stew".toList ∧
    ¬ (mergeEnrichment demoBase demoEnrichment).title = demoBase.title := by
  refine ⟨by decide, by decide, by decide, by decide⟩

theorem numberSteps_length (l : List (List Char)) (start : ℕ) :
    (numberSteps start l).length = l.length := by
  induction l generalizing start with
  | nil => rfl
  | cons t rest ih => simp [numberSteps, ih]

theorem numberSteps_get_n (l : List (List Char)) (start i : ℕ)
    (h : i < (numberSteps start l).length) :
    ((numberSteps start l).get ⟨i, h⟩).n = start + i + 1 := by
  induction l generalizing start i with
  | nil => exact absurd h (by simp [numberSteps])
  | cons t rest ih =>
    cases i with
    | zero => rfl
    | succ j =>
      have h' : j < (numberSteps (start + 1) rest).length := by
        simpa [numberSteps] using h
      have hg : (numberSteps start (t :: rest)).get ⟨j + 1, h⟩ =
          (numberSteps (start + 1) rest).get ⟨j, h'⟩ := rfl
      rw [hg, ih (start + 1) j h']
      omega

theorem numberSteps_get_text_mem (l : List (List Char)) (start i : ℕ)
    (h : i < (numberSteps start l).length) :
    ((numberSteps start l).get ⟨i, h⟩).text ∈ l := by
  induction l generalizing start i with
  | nil => exact absurd h (by simp [numberSteps])
  | cons t rest ih =>
    cases i with
    | zero => exact List.mem_cons_self _ _
    | succ j =>
      exact List.mem_cons_of_mem _
        (ih (start + 1) j (by simpa [numberSteps] using h))

/-- C2: for every input list, the normalized steps are numbered
contiguously from 1 (`steps[i].n = i+1`) and no surviving step text
satisfies the shouty-heading predicate; in particular
`["FOR THE SAUCE", step1, step2]` yields exactly the two real steps,
numbered 1 and 2. -/
theorem normalizeSteps_numbering_and_headings :
    (∀ (arr : List StepLike) (i : ℕ)
      (h : i < (normalizeSteps arr).length),
      ((normalizeSteps arr).get ⟨i, h⟩).n = i + 1 ∧
      isShoutyHeading ((normalizeSteps arr).get ⟨i, h⟩).text = false) ∧
    normalizeSteps demoStepsArr =
      [⟨1, "Simmer the tomatoes gently for an hour.".toList⟩,
       ⟨2, "Season and serve.".toList⟩] := by
  constructor
  · intro arr i h
    constructor
    · have := numberSteps_get_n _ 0 i h
      rw [Nat.zero_add] at this
      exact this
    · have hmem : ((normalizeSteps arr).get ⟨i, h⟩).text ∈
          (((arr.map stepLikeText).map fun s =>
            decode (trimWs s)).filter (· ≠ [])).filter
            (fun s => !isShoutyHeading s) :=
        numberSteps_get_text_mem _ 0 i h
      have hp := (List.mem_filter.mp hmem).2
      simpa using hp
  · decide

/-- C2 witness: the general statement applied to the heading-exclusion
example at index 0. -/
theorem normalizeSteps_numbering_and_headings_witness :
    ((normalizeSteps demoStepsArr).get ⟨0, by decide⟩).n = 0 + 1 ∧
    isShoutyHeading ((normalizeSteps demoStepsArr).get ⟨0, by decide⟩).text
      = false :=
  normalizeSteps_numbering_and_headings.1 demoStepsArr 0 (by decide)

/-- C7: unit inference returns `metric` when every observed unit is
metric-or-neutral and the units are not exclusively US, `us` in the
symmetric case, and `metric` for every other mix including no observed
units; in particular `{g, tbsp}` gives metric, `{cup, oz}` gives us,
`{cup, g}` gives metric, and no units gives metric. -/
theorem inferUnitsFromIngredients_spec :
    (∀ ings : List Ingredient,
      (observedUnits ings ≠ [] →
        ((observedUnits ings).all fun u =>
          METRIC_UNITS.contains u || NEUTRAL_UNITS.contains u) = true →
        ((observedUnits ings).all fun u =>
          US_UNITS.contains u || NEUTRAL_UNITS.contains u) = false →
        inferUnitsFromIngredients ings = .metric) ∧
      (observedUnits ings ≠ [] →
        ((observedUnits ings).all fun u =>
          US_UNITS.contains u || NEUTRAL_UNITS.contains u) = true →
        ((observedUnits ings).all fun u =>
          METRIC_UNITS.contains u || NEUTRAL_UNITS.contains u) = false →
        inferUnitsFromIngredients ings = .us) ∧
      (((observedUnits ings).all fun u =>
          METRIC_UNITS.contains u || NEUTRAL_UNITS.contains u) =
        ((observedUnits ings).all fun u =>
          US_UNITS.contains u || NEUTRAL_UNITS.contains u) →
        inferUnitsFromIngredients ings = .metric) ∧
      (observedUnits ings = [] → inferUnitsFromIngredients ings = .metric)) ∧
    inferUnitsFromIngredients
      [unitOnlyIngredient "g".toList, unitOnlyIngredient "tbsp".toList] =
      .metric ∧
    inferUnitsFromIngredients
      [unitOnlyIngredient "cup".toList, unitOnlyIngredient "oz".toList] =
      .us ∧
    inferUnitsFromIngredients
      [unitOnlyIngredient "cup".toList, unitOnlyIngredient "g".toList] =
      .metric ∧
    inferUnitsFromIngredients [noUnitIngredient] = .metric ∧
    inferUnitsFromIngredients [] = .metric := by
  refine ⟨?_, by decide, by decide, by decide, by decide, by decide⟩
  intro ings
  have hEq : inferUnitsFromIngredients ings =
      (if observedUnits ings = [] then Units.metric
       else if ((observedUnits ings).all fun u =>
              METRIC_UNITS.contains u || NEUTRAL_UNITS.contains u) &&
            !((observedUnits ings).all fun u =>
              US_UNITS.contains u || NEUTRAL_UNITS.contains u) then
         Units.metric
       else if ((observedUnits ings).all fun u =>
              US_UNITS.contains u || NEUTRAL_UNITS.contains u) &&
            !((observedUnits ings).all fun u =>
              METRIC_UNITS.contains u || NEUTRAL_UNITS.contains u) then
         Units.us
       else Units.metric) := rfl
  refine ⟨?_, ?_, ?_, ?_⟩
  · intro hne hm hu
    rw [hEq, if_neg hne, hm, hu]
    rfl
  · intro hne hu hm
    rw [hEq, if_neg hne, hm, hu]
    rfl
  · intro heq
    by_cases hne : observedUnits ings = []
    · rw [hEq, if_pos hne]
    · cases hmo : (observedUnits ings).all fun u =>
        METRIC_UNITS.contains u || NEUTRAL_UNITS.contains u
      · rw [hEq, if_neg hne, hmo, ← heq, hmo]
        rfl
      · rw [hEq, if_neg hne, hmo, ← heq, hmo]
        rfl
  · intro hne
    rw [hEq, if_pos hne]

/-- C7 witness: the general metric rule applied to a single-`g` list. -/
theorem inferUnitsFromIngredients_spec_witness :
    inferUnitsFromIngredients [unitOnlyIngredient "g".toList] = .metric :=
  (inferUnitsFromIngredients_spec.1 [unitOnlyIngredient "g".toList]).1
    (by decide) (by decide) (by decide)

theorem minutes_natValued (j : Json) (q : ℚ)
    (h : minutesFromISO8601Duration j = some q) : ∃ n : ℕ, q = (n : ℚ) := by
  unfold minutesFromISO8601Duration at h
  cases hp : isoPick j with
  | none => rw [hp] at h; cases h
  | some s =>
    rw [hp] at h
    simp only [Option.some_bind] at h
    cases hs : isoScan s with
    | none => simp [hs] at h
    | some n =>
      simp [hs] at h
      exact ⟨n, h.symm⟩

theorem jsRound_natCast (n : ℕ) : jsRound (n : ℚ) = (n : ℤ) := by
  unfold jsRound
  rw [Int.floor_eq_iff]
  constructor
  · push_cast
    linarith
  · push_cast
    linarith

theorem clampInt_natCast (n : ℕ) : clampInt (some (n : ℚ)) = some (n : ℚ) := by
  have h1 : clampInt (some (n : ℚ)) =
      some (max 0 ((jsRound ((n : ℕ) : ℚ) : ℤ) : ℚ)) := rfl
  rw [h1, jsRound_natCast]
  norm_num

/-- C4 amended: when the structured object has no parseable `totalTime`,
`time.total` falls back to `prep + cook` with a missing component treated
as 0 — it is the sum whenever that sum is positive (even when only one of
prep/cook is present) and null exactly when the sum is 0. -/
theorem jsonld_total_fallback (obj : JsonLdObj) (url : List Char)
    (dom : List Char → Option (List Char)) (now : List Char)
    (hTotal : minutesFromISO8601Duration obj.totalTime = none) :
    (normalizeFromJSONLD obj url dom now).time.total =
      (if (minutesFromISO8601Duration obj.prepTime).getD 0 +
          (minutesFromISO8601Duration obj.cookTime).getD 0 = 0 then none
       else
         some ((minutesFromISO8601Duration obj.prepTime).getD 0 +
           (minutesFromISO8601Duration obj.cookTime).getD 0)) := by
  have hp : ∃ n : ℕ,
      (minutesFromISO8601Duration obj.prepTime).getD 0 = (n : ℚ) := by
    cases hx : minutesFromISO8601Duration obj.prepTime with
    | none => exact ⟨0, by simp⟩
    | some q =>
      obtain ⟨n, hn⟩ := minutes_natValued _ _ hx
      exact ⟨n, by simp [hn]⟩
  have hc : ∃ n : ℕ,
      (minutesFromISO8601Duration obj.cookTime).getD 0 = (n : ℚ) := by
    cases hx : minutesFromISO8601Duration obj.cookTime with
    | none => exact ⟨0, by simp⟩
    | some q =>
      obtain ⟨n, hn⟩ := minutes_natValued _ _ hx
      exact ⟨n, by simp [hn]⟩
  obtain ⟨n1, hn1⟩ := hp
  obtain ⟨n2, hn2⟩ := hc
  have htt : (normalizeFromJSONLD obj url dom now).time.total =
      clampInt (jsNullish (minutesFromISO8601Duration obj.totalTime)
        (orNullNum ((minutesFromISO8601Duration obj.prepTime).getD 0 +
          (minutesFromISO8601Duration obj.cookTime).getD 0))) := rfl
  rw [htt, hTotal]
  simp only [jsNullish]
  rw [hn1, hn2, orNullNum]
  have hcast : ((n1 : ℚ) + (n2 : ℚ)) = ((n1 + n2 : ℕ) : ℚ) := by push_cast; ring
  by_cases hz : ((n1 : ℚ) + (n2 : ℚ)) = 0
  · rw [if_pos hz]
    rfl
  · rw [if_neg hz]
    rw [hcast, clampInt_natCast]

/-- C4 witness: the fallback equation instantiated at the prep-only
object. -/
theorem jsonld_total_fallback_witness :
    (normalizeFromJSONLD jsonLdPrepOnly "u".toList dom0 "t".toList).time.total
      = (if (minutesFromISO8601Duration jsonLdPrepOnly.prepTime).getD 0 +
            (minutesFromISO8601Duration jsonLdPrepOnly.cookTime).getD 0 = 0
         then none
         else
           some ((minutesFromISO8601Duration jsonLdPrepOnly.prepTime).getD 0 +
             (minutesFromISO8601Duration jsonLdPrepOnly.cookTime).getD 0)) :=
  jsonld_total_fallback jsonLdPrepOnly "u".toList dom0 "t".toList (by decide)

theorem mem_setAdd {a s : List Char} {acc : List (List Char)} :
    a ∈ setAdd acc s ↔ a ∈ acc ∨ a = s := by
  unfold setAdd
  by_cases h : s ∈ acc
  · rw [if_pos h]
    constructor
    · exact Or.inl
    · rintro (ha | rfl)
      · exact ha
      · exact h
  · rw [if_neg h]
    simp

theorem nodup_setAdd {s : List Char} {acc : List (List Char)}
    (h : acc.Nodup) : (setAdd acc s).Nodup := by
  unfold setAdd
  by_cases hs : s ∈ acc
  · rw [if_pos hs]
    exact h
  · rw [if_neg hs]
    simp [List.nodup_append, h, hs]

theorem mem_addCleanTags {a : List Char} (raw : List (List Char))
    (acc : List (List Char)) :
    a ∈ addCleanTags acc raw ↔
      a ∈ acc ∨ ∃ t ∈ raw, a = lowerStr (trimWs t) ∧ a ≠ [] := by
  induction raw generalizing acc with
  | nil => simp [addCleanTags]
  | cons t rest ih =>
    have hstep : addCleanTags acc (t :: rest) =
        addCleanTags
          (if lowerStr (trimWs t) = [] then acc
           else setAdd acc (lowerStr (trimWs t))) rest := rfl
    rw [hstep, ih]
    by_cases hc : lowerStr (trimWs t) = []
    · rw [if_pos hc]
      constructor
      · rintro (ha | ⟨u, hu, rfl, hne⟩)
        · exact Or.inl ha
        · exact Or.inr ⟨u, List.mem_cons_of_mem _ hu, rfl, hne⟩
      · rintro (ha | ⟨u, hu, rfl, hne⟩)
        · exact Or.inl ha
        · rcases List.mem_cons.mp hu with rfl | hu'
          · exact absurd hc hne
          · exact Or.inr ⟨u, hu', rfl, hne⟩
    · rw [if_neg hc]
      constructor
      · rintro (ha | ⟨u, hu, rfl, hne⟩)
        · rcases mem_setAdd.mp ha with ha' | rfl
          · exact Or.inl ha'
          · exact Or.inr ⟨t, List.mem_cons_self _ _, rfl, hc⟩
        · exact Or.inr ⟨u, List.mem_cons_of_mem _ hu, rfl, hne⟩
      · rintro (ha | ⟨u, hu, rfl, hne⟩)
        · exact Or.inl (mem_setAdd.mpr (Or.inl ha))
        · rcases List.mem_cons.mp hu with rfl | hu'
          · exact Or.inl (mem_setAdd.mpr (Or.inr rfl))
          · exact Or.inr ⟨u, hu', rfl, hne⟩

theorem nodup_addCleanTags (raw : List (List Char))
    (acc : List (List Char)) (h : acc.Nodup) :
    (addCleanTags acc raw).Nodup := by
  induction raw generalizing acc with
  | nil => exact h
  | cons t rest ih =>
    have hstep : addCleanTags acc (t :: rest) =
        addCleanTags
          (if lowerStr (trimWs t) = [] then acc
           else setAdd acc (lowerStr (trimWs t))) rest := rfl
    rw [hstep]
    by_cases hc : lowerStr (trimWs t) = []
    · rw [if_pos hc]
      exact ih acc h
    · rw [if_neg hc]
      exact ih _ (nodup_setAdd h)

theorem mem_foldl_setAdd (l : List (List Char)) (acc : List (List Char))
    {a : List Char} : a ∈ l.foldl setAdd acc ↔ a ∈ acc ∨ a ∈ l := by
  induction l generalizing acc with
  | nil => simp
  | cons t rest ih =>
    rw [List.foldl_cons, ih]
    constructor
    · rintro (ha | ha)
      · rcases mem_setAdd.mp ha with ha' | rfl
        · exact Or.inl ha'
        · exact Or.inr (List.mem_cons_self _ _)
      · exact Or.inr (List.mem_cons_of_mem _ ha)
    · rintro (ha | ha)
      · exact Or.inl (mem_setAdd.mpr (Or.inl ha))
      · rcases List.mem_cons.mp ha with rfl | ha'
        · exact Or.inl (mem_setAdd.mpr (Or.inr rfl))
        · exact Or.inr ha'

theorem nodup_foldl_setAdd (l : List (List Char))
    (acc : List (List Char)) (h : acc.Nodup) :
    (l.foldl setAdd acc).Nodup := by
  induction l generalizing acc with
  | nil => exact h
  | cons t rest ih => exact ih _ (nodup_setAdd h)

theorem isUpperAscii_lowerChar (c : Char) :
    isUpperAscii (lowerChar c) = false := by
  unfold lowerChar
  by_cases h : ('A' ≤ c && c ≤ 'Z') = true
  · rw [if_pos h]
    simp only [Bool.and_eq_true, decide_eq_true_eq] at h
    have h65 : 65 ≤ c.toNat := by
      have h1 := h.1
      rw [Char.le_def, UInt32.le_def, BitVec.le_def] at h1
      exact h1
    have h90 : c.toNat ≤ 90 := by
      have h2 := h.2
      rw [Char.le_def, UInt32.le_def, BitVec.le_def] at h2
      exact h2
    have hvalid : (c.toNat + 32).isValidChar := Or.inl (by omega)
    have heq : Char.ofNat (c.toNat + 32) =
        Char.ofNatAux (c.toNat + 32) hvalid := by
      rw [Char.ofNat, dif_pos hvalid]
    rw [heq]
    have hnotle : ¬ (Char.ofNatAux (c.toNat + 32) hvalid ≤ 'Z') := by
      rw [Char.le_def, UInt32.le_def, BitVec.le_def]
      show ¬ (c.toNat + 32 ≤ 90)
      omega
    unfold isUpperAscii
    simp [hnotle]
  · rw [if_neg h]
    unfold isUpperAscii
    exact Bool.of_not_eq_true h

theorem isLowerStr_lowerStr (s : List Char) : isLowerStr (lowerStr s) = true := by
  unfold isLowerStr lowerStr
  rw [List.all_eq_true]
  intro c hc
  obtain ⟨d, _, rfl⟩ := List.mem_map.mp hc
  simp [isUpperAscii_lowerChar]

theorem lowerStr_of_isLower {s : List Char} (h : isLowerStr s = true) :
    lowerStr s = s := by
  unfold isLowerStr at h
  rw [List.all_eq_true] at h
  unfold lowerStr
  induction s with
  | nil => rfl
  | cons c rest ih =>
    have hc : isUpperAscii c = false := by
      have := h c (List.mem_cons_self c rest)
      simpa using this
    have hrest := ih fun d hd => h d (List.mem_cons_of_mem _ hd)
    simp only [List.map_cons, hrest]
    unfold lowerChar
    unfold isUpperAscii at hc
    rw [if_neg (by simp [hc])]

theorem pairwise_ci_of_nodup_lower (l : List (List Char)) (hnd : l.Nodup)
    (hlow : ∀ s ∈ l, isLowerStr s = true) :
    l.Pairwise fun a b => lowerStr a ≠ lowerStr b := by
  refine hnd.imp_of_mem ?_
  intro a b ha hb hne
  rw [lowerStr_of_isLower (hlow a ha), lowerStr_of_isLower (hlow b hb)]
  exact hne

/-- C1 amended: `mergeEnrichment` fills a field with the enrichment's
value whenever one is proposed and keeps the base value exactly when the
enrichment proposes none (so a present base title survives only a null
enrichment title); tags are unioned — the merged tag list contains the
base tags plus every trimmed-lowercased non-empty proposed
tag/cuisine/method. -/
theorem mergeEnrichment_fills (base : Recipe) (e : LLMEnrichment) :
    (mergeEnrichment base e).title = jsNullish e.title base.title ∧
    (mergeEnrichment base e).description =
      jsNullish e.description base.description ∧
    (e.title = none → (mergeEnrichment base e).title = base.title) ∧
    (e.description = none →
      (mergeEnrichment base e).description = base.description) ∧
    (e.servings = none →
      (mergeEnrichment base e).yieldInfo.servings =
        base.yieldInfo.servings) ∧
    (e.prepMinutes = none →
      (mergeEnrichment base e).time.prep = base.time.prep) ∧
    (e.cookMinutes = none →
      (mergeEnrichment base e).time.cook = base.time.cook) ∧
    (e.servingsText = none →
      (mergeEnrichment base e).yieldInfo.original =
        base.yieldInfo.original) ∧
    (∀ s, s ∈ (mergeEnrichment base e).tags ↔
      s ∈ base.tags ∨
      ∃ t ∈ e.tags.getD [] ++ e.cuisines.getD [] ++ e.methods.getD [],
        s = lowerStr (trimWs t) ∧ s ≠ []) := by
  refine ⟨rfl, rfl, ?_, ?_, ?_, ?_, ?_, ?_, ?_⟩
  · intro h
    have h1 : (mergeEnrichment base e).title =
        jsNullish e.title base.title := rfl
    rw [h1, h]
    rfl
  · intro h
    have h1 : (mergeEnrichment base e).description =
        jsNullish e.description base.description := rfl
    rw [h1, h]
    rfl
  · intro h
    have h1 : (mergeEnrichment base e).yieldInfo.servings =
        (match e.servings with
         | some q => clampInt (some q)
         | none => base.yieldInfo.servings) := rfl
    rw [h1, h]
  · intro h
    have h1 : (mergeEnrichment base e).time.prep =
        (match e.prepMinutes with
         | some q => clampInt (some q)
         | none => base.time.prep) := rfl
    rw [h1, h]
  · intro h
    have h1 : (mergeEnrichment base e).time.cook =
        (match e.cookMinutes with
         | some q => clampInt (some q)
         | none => base.time.cook) := rfl
    rw [h1, h]
  · intro h
    have h1 : (mergeEnrichment base e).yieldInfo.original =
        (match e.servingsText with
         | some s => if trimWs s = [] then base.yieldInfo.original
                     else some (trimWs s)
         | none => base.yieldInfo.original) := rfl
    rw [h1, h]
  · intro s
    have h1 : (mergeEnrichment base e).tags =
        addCleanTags (base.tags.foldl setAdd [])
          (e.tags.getD [] ++ e.cuisines.getD [] ++ e.methods.getD []) := rfl
    rw [h1, mem_addCleanTags, mem_foldl_setAdd]
    simp

/-- C1 witness: the null-enrichment clause applied to the demo base and
enrichment (whose description is absent). -/
theorem mergeEnrichment_fills_witness :
    (mergeEnrichment demoBase demoEnrichment).description =
      demoBase.description :=
  (mergeEnrichment_fills demoBase demoEnrichment).2.2.2.1 rfl

/-- C5 amended: every normalizer lowercases tags, but only the LLM paths
de-duplicate: `toRecipe` and `mergeEnrichment` produce tag lists with no
two case-insensitively equal entries (`mergeEnrichment` assuming, as every
producer guarantees, lowercase base tags), and the heuristics normalizer
produces no tags at all; `normalizeFromJSONLD` lowercases but keeps
duplicates (see the counterexample). -/
theorem tags_lowercase_dedup :
    (∀ (obj : JsonLdObj) (url : List Char)
      (dom : List Char → Option (List Char)) (now : List Char),
      ∀ s ∈ (normalizeFromJSONLD obj url dom now).tags,
        isLowerStr s = true) ∧
    (∀ (data : LLMExtraction) (url : List Char)
      (heur : Option HeuristicExtraction)
      (dom : List Char → Option (List Char)) (now : List Char),
      (toRecipe data url heur dom now).tags.Pairwise
        (fun a b => lowerStr a ≠ lowerStr b) ∧
      ∀ s ∈ (toRecipe data url heur dom now).tags, isLowerStr s = true) ∧
    (∀ (base : Recipe) (e : LLMEnrichment),
      (mergeEnrichment base e).tags.Nodup ∧
      ((∀ s ∈ base.tags, isLowerStr s = true) →
        (mergeEnrichment base e).tags.Pairwise
          (fun a b => lowerStr a ≠ lowerStr b) ∧
        ∀ s ∈ (mergeEnrichment base e).tags, isLowerStr s = true)) ∧
    (∀ (data : HeuristicExtraction) (url : List Char)
      (dom : List Char → Option (List Char)) (now : List Char),
      (normalizeFromHeuristics data url dom now).tags = []) := by
  have hToRecipeLower : ∀ (data : LLMExtraction) (url : List Char)
      (heur : Option HeuristicExtraction)
      (dom : List Char → Option (List Char)) (now : List Char),
      ∀ s ∈ (toRecipe data url heur dom now).tags, isLowerStr s = true := by
    intro data url heur dom now s hs
    have h1 : (toRecipe data url heur dom now).tags =
        addCleanTags [] (data.tags ++ data.cuisines ++ data.methods) := rfl
    rw [h1, mem_addCleanTags] at hs
    rcases hs with hs | ⟨t, _, rfl, _⟩
    · cases hs
    · exact isLowerStr_lowerStr _
  have hToRecipeNodup : ∀ (data : LLMExtraction) (url : List Char)
      (heur : Option HeuristicExtraction)
      (dom : List Char → Option (List Char)) (now : List Char),
      (toRecipe data url heur dom now).tags.Nodup := by
    intro data url heur dom now
    exact nodup_addCleanTags _ _ List.nodup_nil
  refine ⟨?_, ?_, ?_, ?_⟩
  · intro obj url dom now s hs
    have h1 : (normalizeFromJSONLD obj url dom now).tags =
        (toStringArray obj.keywords ++ toStringArray obj.recipeCategory ++
          toStringArray obj.recipeCuisine).map lowerStr := rfl
    rw [h1] at hs
    obtain ⟨t, _, rfl⟩ := List.mem_map.mp hs
    exact isLowerStr_lowerStr t
  · intro data url heur dom now
    exact ⟨pairwise_ci_of_nodup_lower _ (hToRecipeNodup data url heur dom now)
      (hToRecipeLower data url heur dom now),
      hToRecipeLower data url heur dom now⟩
  · intro base e
    refine ⟨nodup_addCleanTags _ _ (nodup_foldl_setAdd _ _ List.nodup_nil), ?_⟩
    intro hbase
    have hlow : ∀ s ∈ (mergeEnrichment base e).tags, isLowerStr s = true := by
      intro s hs
      have h1 : (mergeEnrichment base e).tags =
          addCleanTags (base.tags.foldl setAdd [])
            (e.tags.getD [] ++ e.cuisines.getD [] ++ e.methods.getD []) := rfl
      rw [h1, mem_addCleanTags] at hs
      rcases hs with hs | ⟨t, _, rfl, _⟩
      · rw [mem_foldl_setAdd] at hs
        rcases hs with hs | hs
        · cases hs
        · exact hbase s hs
      · exact isLowerStr_lowerStr _
    exact ⟨pairwise_ci_of_nodup_lower _
      (nodup_addCleanTags _ _ (nodup_foldl_setAdd _ _ List.nodup_nil)) hlow,
      hlow⟩
  · intro data url dom now
    rfl

/-- C5 witness: the merge clause applied to the demo base (whose tags are
lowercase), yielding a case-insensitively duplicate-free tag list. -/
theorem tags_lowercase_dedup_witness :
    (mergeEnrichment demoBase demoEnrichment).tags.Nodup ∧
    (mergeEnrichment demoBase demoEnrichment).tags.Pairwise
      (fun a b => lowerStr a ≠ lowerStr b) :=
  ⟨(tags_lowercase_dedup.2.2.1 demoBase demoEnrichment).1,
   ((tags_lowercase_dedup.2.2.1 demoBase demoEnrichment).2 (by decide)).1⟩

theorem headNotWs_dropWhile (l : List Char) :
    headNotWs (l.dropWhile isWsChar) = true := by
  induction l with
  | nil => rfl
  | cons c rest ih =>
    by_cases hc : isWsChar c = true
    · rw [List.dropWhile_cons_of_pos hc]
      exact ih
    · rw [List.dropWhile_cons_of_neg hc]
      unfold headNotWs
      simp [hc]

theorem dropWhile_of_headNotWs {l : List Char} (h : headNotWs l = true) :
    l.dropWhile isWsChar = l := by
  cases l with
  | nil => rfl
  | cons c rest =>
    unfold headNotWs at h
    simp only [List.head?_cons, Bool.not_eq_true'] at h
    rw [List.dropWhile_cons_of_neg (by simp [h])]

theorem getLast?_of_suffix {α : Type} {S X : List α} (h : S <:+ X)
    (hne : S ≠ []) : S.getLast? = X.getLast? := by
  obtain ⟨pre, rfl⟩ := h
  rw [List.getLast?_append_of_ne_nil _ hne]

theorem head?_append_left {α : Type} {A B : List α} (h : A ≠ []) :
    (A ++ B).head? = A.head? := by
  cases A with
  | nil => exact absurd rfl h
  | cons a t => rfl

theorem headNotWs_trimWs (l : List Char) : headNotWs (trimWs l) = true := by
  unfold trimWs
  by_cases hB : (l.dropWhile isWsChar).reverse.dropWhile isWsChar = []
  · simp [hB, headNotWs]
  · have hlast := getLast?_of_suffix
      (List.dropWhile_suffix isWsChar
        (l := (l.dropWhile isWsChar).reverse)) hB
    rw [List.getLast?_reverse] at hlast
    unfold headNotWs
    rw [List.head?_reverse, hlast]
    have hhd := headNotWs_dropWhile l
    unfold headNotWs at hhd
    exact hhd

theorem lastNotWs_trimWs (l : List Char) :
    headNotWs (trimWs l).reverse = true := by
  unfold trimWs
  rw [List.reverse_reverse]
  exact headNotWs_dropWhile _

theorem trimWs_fix {l : List Char} (h1 : headNotWs l = true)
    (h2 : headNotWs l.reverse = true) : trimWs l = l := by
  unfold trimWs
  rw [dropWhile_of_headNotWs h1, dropWhile_of_headNotWs h2,
    List.reverse_reverse]

theorem headNotWs_squeezeWsAux_true (l : List Char) :
    headNotWs (squeezeWsAux true l) = true := by
  induction l with
  | nil => rfl
  | cons c rest ih =>
    by_cases hc : isWsChar c = true
    · simp only [squeezeWsAux, hc, if_true]
      exact ih
    · simp only [squeezeWsAux, hc, if_false]
      unfold headNotWs
      simp [hc]

theorem headNotWs_squeezeWsAux_false {l : List Char}
    (h : headNotWs l = true) :
    headNotWs (squeezeWsAux false l) = true := by
  cases l with
  | nil => rfl
  | cons c rest =>
    unfold headNotWs at h
    simp only [List.head?_cons, Bool.not_eq_true'] at h
    simp only [squeezeWsAux, h, if_false]
    unfold headNotWs
    simp [h]

theorem squeezeWsAux_cons_ws_false {c : Char} {rest : List Char}
    (hc : isWsChar c = true) :
    squeezeWsAux false (c :: rest) = ' ' :: squeezeWsAux true rest := by
  simp [squeezeWsAux, hc]

theorem squeezeWsAux_cons_ws_true {c : Char} {rest : List Char}
    (hc : isWsChar c = true) :
    squeezeWsAux true (c :: rest) = squeezeWsAux true rest := by
  simp [squeezeWsAux, hc]

theorem squeezeWsAux_cons_nws {c : Char} {rest : List Char} {b : Bool}
    (hc : isWsChar c = false) :
    squeezeWsAux b (c :: rest) = c :: squeezeWsAux false rest := by
  simp [squeezeWsAux, hc]

theorem isolSpaces_cons_nws {c : Char} {X : List Char}
    (hc : isWsChar c = false) (hX : isolSpaces X = true) :
    isolSpaces (c :: X) = true := by
  unfold isolSpaces
  rw [if_neg (by simp [hc])]
  simp [hX]

theorem isolSpaces_squeezeWsAux (l : List Char) :
    ∀ b, isolSpaces (squeezeWsAux b l) = true := by
  induction l with
  | nil => intro b; rfl
  | cons c rest ih =>
    intro b
    by_cases hc : isWsChar c = true
    · cases b with
      | false =>
        rw [squeezeWsAux_cons_ws_false hc]
        unfold isolSpaces
        rw [if_pos (by decide : isWsChar ' ' = true)]
        simp [headNotWs_squeezeWsAux_true rest, ih true]
      | true =>
        rw [squeezeWsAux_cons_ws_true hc]
        exact ih true
    · rw [squeezeWsAux_cons_nws (by simpa using hc)]
      exact isolSpaces_cons_nws (by simpa using hc) (ih false)

theorem squeezeWsAux_fix (l : List Char) : ∀ (b : Bool),
    isolSpaces l = true → (b = true → headNotWs l = true) →
    squeezeWsAux b l = l := by
  induction l with
  | nil => intro b _ _; rfl
  | cons c rest ih =>
    intro b hiso hb
    unfold isolSpaces at hiso
    rw [Bool.and_eq_true] at hiso
    by_cases hc : isWsChar c = true
    · rw [if_pos hc, Bool.and_eq_true, decide_eq_true_eq] at hiso
      obtain ⟨⟨hsp, hrest⟩, hiso2⟩ := hiso
      cases b with
      | true =>
        have := hb rfl
        unfold headNotWs at this
        simp only [List.head?_cons, Bool.not_eq_true'] at this
        rw [this] at hc
        cases hc
      | false =>
        rw [squeezeWsAux_cons_ws_false hc,
          ih true hiso2 (fun _ => hrest), hsp]
    · have hiso2 := hiso.2
      rw [squeezeWsAux_cons_nws (by simpa using hc),
        ih false hiso2 (by simp)]

theorem squeezeWsAux_last (l : List Char) : ∀ (b : Bool),
    headNotWs l.reverse = true →
    (l ≠ [] → squeezeWsAux b l ≠ []) ∧
    headNotWs (squeezeWsAux b l).reverse = true := by
  induction l with
  | nil => intro b _; exact ⟨fun h => absurd rfl h, rfl⟩
  | cons c rest ih =>
    intro b h
    cases hrest : rest with
    | nil =>
      have hc : isWsChar c = false := by
        subst hrest
        unfold headNotWs at h
        simpa using h
      subst hrest
      cases b <;> simp [squeezeWsAux, hc, headNotWs]
    | cons d rest' =>
      subst hrest
      have hner : d :: rest' ≠ [] := by simp
      have htrans : headNotWs (d :: rest').reverse = true := by
        have hrevne : (d :: rest').reverse ≠ [] := by simp
        unfold headNotWs at h ⊢
        rw [List.reverse_cons, head?_append_left hrevne] at h
        exact h
      have IHt := ih true htrans
      by_cases hc : isWsChar c = true
      · cases b with
        | true =>
          rw [squeezeWsAux_cons_ws_true hc]
          exact ⟨fun _ => IHt.1 hner, IHt.2⟩
        | false =>
          rw [squeezeWsAux_cons_ws_false hc]
          have hSne : squeezeWsAux true (d :: rest') ≠ [] := IHt.1 hner
          refine ⟨fun _ => by simp, ?_⟩
          unfold headNotWs
          rw [List.reverse_cons, head?_append_left (by simp [hSne])]
          have h2 := IHt.2
          unfold headNotWs at h2
          exact h2
      · rw [squeezeWsAux_cons_nws (by simpa using hc)]
        have hSne : squeezeWsAux false (d :: rest') ≠ [] :=
          (ih false htrans).1 hner
        refine ⟨fun _ => by simp, ?_⟩
        unfold headNotWs
        rw [List.reverse_cons, head?_append_left (by simp [hSne])]
        have h2 := (ih false htrans).2
        unfold headNotWs at h2
        exact h2

theorem compactWs_idem (l : List Char) :
    compactWs (compactWs l) = compactWs l := by
  unfold compactWs squeezeWs
  have hhead : headNotWs (squeezeWsAux false (trimWs l)) = true :=
    headNotWs_squeezeWsAux_false (headNotWs_trimWs l)
  have hlast : headNotWs (squeezeWsAux false (trimWs l)).reverse = true :=
    (squeezeWsAux_last (trimWs l) false (lastNotWs_trimWs l)).2
  rw [trimWs_fix hhead hlast]
  exact squeezeWsAux_fix _ false (isolSpaces_squeezeWsAux _ false) (by simp)

/-- C9: `parseIngredientLine` is idempotent through `original` — whenever
it returns an Ingredient, re-running it on that Ingredient's `original`
text (plain text, no further decoding: entity decoding is the identity in
this embedding) returns the very same Ingredient, in particular the same
quantity, unit, item and note. -/
theorem parseIngredientLine_idempotent (line : String) (ing : Ingredient)
    (h : parseIngredientLine line = some ing) :
    parseIngredientLine (String.mk ing.original) = some ing := by
  unfold parseIngredientLine parseIngredientLineL decode at h ⊢
  by_cases hc : compactWs line.toList = []
  · rw [if_pos hc] at h
    cases h
  · rw [if_neg hc, if_neg hc] at h
    have hing : ing = parseIngredientCore (compactWs line.toList) :=
      (Option.some.inj h).symm
    have horig : ing.original = compactWs line.toList := by
      rw [hing]
      rfl
    have htl : (String.mk ing.original).toList = compactWs line.toList := by
      rw [show (String.mk ing.original).toList = ing.original from rfl, horig]
    rw [htl, compactWs_idem, if_neg hc, if_neg hc, hing]

/-- C9 witness: idempotence at the mixed-number example line. -/
theorem parseIngredientLine_idempotent_witness :
    parseIngredientLine
      (String.mk
        ({ original := "1 1/2 cups flour".toList, quantity := some (3/2 : ℚ),
           unit := some "cup".toList, item := some "flour".toList,
           note := none } : Ingredient).original) =
      some { original := "1 1/2 cups flour".toList, quantity := some (3/2 : ℚ),
             unit := some "cup".toList, item := some "flour".toList,
             note := none } :=
  parseIngredientLine_idempotent "1 1/2 cups flour" _ (by decide)

/-- C10: `mergeEnrichment` is a frame for everything except title,
description, yield, time and tags: the merged Recipe's ingredients, steps,
image, author, units, source, dietFlags and llmNotes are the base's,
unchanged, for every base Recipe and every enrichment response. -/
theorem mergeEnrichment_frame (base : Recipe) (e : LLMEnrichment) :
    (mergeEnrichment base e).ingredients = base.ingredients ∧
    (mergeEnrichment base e).steps = base.steps ∧
    (mergeEnrichment base e).image = base.image ∧
    (mergeEnrichment base e).author = base.author ∧
    (mergeEnrichment base e).units = base.units ∧
    (mergeEnrichment base e).source = base.source ∧
    (mergeEnrichment base e).dietFlags = base.dietFlags ∧
    (mergeEnrichment base e).llmNotes = base.llmNotes := by
  exact ⟨rfl, rfl, rfl, rfl, rfl, rfl, rfl, rfl⟩

end Recipes
